import Mathlib

/-!
Verification development for the kustomizily manifest-splitting and
filename-resolution engine.  Go strings are embedded as `List Char`
(byte-for-byte for the ASCII data the tool manipulates), Go maps as
association lists whose list order stands for the map's iteration order
(which Go leaves unspecified), and fallible operations as `Option` or
`Except`.  Every definition is translated from the repository's source;
definitions whose name ends in `Spec` are instead rendered from the
specification's words, for comparison with the source-derived ones.
-/

/-- Go strings, embedded as lists of characters. -/
abbrev Str := List Char

/-- Shorthand turning a Lean string literal into the `Str` embedding. -/
def lit (s : String) : Str := s.toList

/-- Contents handed to the write-file sink: either textual data taken from a
decoded string field, or raw bytes produced by base64 decoding. -/
inductive FileData where
  | str (s : Str)
  | bin (b : List Nat)
deriving DecidableEq

/-- `charEqual` from the source: two bytes are equal, or one is `-` and the
other `_`. -/
def charEqual (a b : Char) : Bool :=
  if a = b then true
  else if a = '-' ∧ b = '_' then true
  else if a = '_' ∧ b = '-' then true
  else false

/-- `trimPrefix` from the source: strip `p` from the front of `s` when every
position matches up to `charEqual`; otherwise return `s` unchanged. -/
def trimPref (s p : Str) : Str :=
  if s.length < p.length then s
  else if (List.zip s p).all (fun cc => charEqual cc.1 cc.2) then s.drop p.length
  else s

/-- Longest `charEqual`-wise common prefix of two strings, returning the
characters of the first argument. -/
def lcpTwo : Str → Str → Str
  | [], _ => []
  | _, [] => []
  | a :: as, b :: bs => if charEqual b a then a :: lcpTwo as bs else []

/-- `longestCommonPrefix` from the source.  For fewer than two strings the
source returns the empty string; for two or more it scans the first string
against all others, which the pairwise fold below computes. -/
def longestCommonPref : List Str → Str
  | [] => []
  | [_] => []
  | s :: rest => rest.foldl lcpTwo s

/-- The common-prefix operation as the specification words it: the longest
common prefix across the batch's names (for a single name, that is the name
itself).  Differs from the source only on batches of fewer than two names. -/
def lcpSpec : List Str → Str
  | [] => []
  | s :: rest => rest.foldl lcpTwo s

/-- `indexOfSeparator` from the source: one past the last `-` or `_` in `s`,
or `none` when no separator occurs (the source returns `-1`). -/
def indexOfSeparator (s : Str) : Option Nat :=
  match s.reverse.findIdx? (fun c => c = '-' ∨ c = '_') with
  | none => none
  | some r => some (s.length - r)

/-- Boolean pairwise-distinctness check used to mirror the source's
`localUniq` set. -/
def nodupB : List Str → Bool
  | [] => true
  | x :: xs => !(xs.contains x) && nodupB xs

/-- Acceptance test of `isUniqueFilenameFunc` / `isUniqueFilenameFuncForK8sObjects`:
every candidate name is non-empty, absent from the reserved set `uniq`, and
the names are pairwise distinct. -/
def validNames (names : List Str) (uniq : List Str) : Bool :=
  names.all (fun n => !(n.isEmpty) && !(uniq.contains n)) && nodupB names

/-- Association-list lookup (first occurrence), mirroring indexing a Go map. -/
def lookupA {α : Type} (k : Str) : List (Str × α) → Option α
  | [] => none
  | (k', v) :: rest => if k' = k then some v else lookupA k rest

/-- Go map indexing with the zero value: a missing key reads as `""`. -/
def lookupD (m : List (Str × Str)) (k : Str) : Str :=
  match lookupA k m with
  | none => []
  | some v => v

/-- Go map assignment `m[k] = v`: replace the value in place when the key is
present, otherwise append the new entry. -/
def goInsert (m : List (Str × FileData)) (k : Str) (v : FileData) :
    List (Str × FileData) :=
  match m with
  | [] => [(k, v)]
  | (k', v') :: rest => if k' = k then (k, v) :: rest else (k', v') :: goInsert rest k v

/-- Number of entries of an association list carrying the key `k`. -/
def countKey (k : Str) (m : List (Str × FileData)) : Nat :=
  (m.filter (fun p => p.1 = k)).length

/-- ASCII model of `strings.ToLower`. -/
def charLower (c : Char) : Char :=
  if 'A' ≤ c ∧ c ≤ 'Z' then Char.ofNat (c.toNat + 32) else c

/-- ASCII model of `strings.ToLower` on strings. -/
def toLowerStr (s : Str) : Str := s.map charLower

/-- The whitespace bytes trimmed by `bytes.TrimSpace` (ASCII range). -/
def isSpaceB (c : Char) : Bool :=
  c = ' ' ∨ c = '\t' ∨ c = '\n' ∨ c = '\r' ∨ c = Char.ofNat 11 ∨ c = Char.ofNat 12

/-- `bytes.TrimSpace` (ASCII model): drop whitespace from both ends. -/
def trimAscii (s : Str) : Str :=
  ((s.dropWhile isSpaceB).reverse.dropWhile isSpaceB).reverse

/-- Byte-lexicographic string order of Go's `sort.Strings`. -/
def strLe : Str → Str → Bool
  | [], _ => true
  | _ :: _, [] => false
  | a :: as, b :: bs => if a = b then strLe as bs else decide (a < b)

/-- `metadata` from the source (labels and annotation maps kept as
association lists in iteration order). -/
structure Metadata where
  namespace_ : Str := []
  name : Str := []
  labels : List (Str × Str) := []
  anns : List (Str × Str) := []
deriving DecidableEq

/-- `specNames` from the source. -/
structure SpecNames where
  plural : Str := []
deriving DecidableEq

/-- `spec` from the source (CustomResourceDefinition fields). -/
structure ObjSpec where
  group : Str := []
  names : SpecNames := {}
deriving DecidableEq

/-- `k8sObject` from the source. -/
structure K8sObject where
  kind : Str := []
  apiVersion : Str := []
  metadata : Metadata := {}
  spec : ObjSpec := {}
  data : List (Str × Str) := []
  binaryData : List (Str × Str) := []
  stringData : List (Str × Str) := []
  immutable : Bool := false
  type_ : Str := []
  raw : Str := []
deriving DecidableEq

/-- `filesObject` from the source: an owning object plus its key-to-payload
map. -/
structure FilesObject where
  k8sObject : K8sObject
  files : List (Str × FileData)
deriving DecidableEq

/-- `getShortName` from the source: strip an `<instance>-` name prefix when
the instance label is present, then replace `:` with `_`. -/
def getShortName (obj : K8sObject) : Str :=
  let name := obj.metadata.name
  let inst := lookupD obj.metadata.labels (lit "app.kubernetes.io/instance")
  let name := if inst ≠ [] then trimPref name (inst ++ ['-']) else name
  name.map (fun c => if c = ':' then '_' else c)

/-- `getCRDFilename` from the source: `group_plural.yaml`, empty when either
part is missing. -/
def getCRDFilename (obj : K8sObject) : Str :=
  if obj.spec.group = [] ∨ obj.spec.names.plural = [] then []
  else obj.spec.group ++ ['_'] ++ obj.spec.names.plural ++ lit ".yaml"

/-- `getK8sObjectShortFilenameByKind` from the source. -/
def getK8sObjectShortFilenameByKind (obj : K8sObject) : Str :=
  toLowerStr obj.kind ++ lit ".yaml"

/-- `getK8sObjectShortFilenameByName` from the source. -/
def getK8sObjectShortFilenameByName (obj : K8sObject) : Str :=
  getShortName obj ++ lit ".yaml"

/-- `getK8sObjectShortFilenameByNameAndKind` from the source. -/
def getK8sObjectShortFilenameByNameAndKind (obj : K8sObject) : Str :=
  getShortName obj ++ ['_'] ++ toLowerStr obj.kind ++ lit ".yaml"

/-- The api-group qualifier of `getK8sObjectFilenameFull` from the source. -/
def qualifiedKind (obj : K8sObject) : Str :=
  let kind := toLowerStr obj.kind
  if ¬ obj.apiVersion.contains '.' ∧ (lit "/v1").isSuffixOf obj.apiVersion then
    (obj.apiVersion.take (obj.apiVersion.length - 3)) ++ ['_'] ++ kind
  else if obj.apiVersion ≠ lit "v1" then
    (obj.apiVersion.map (fun c => if c = '/' then '_' else c)) ++ ['_'] ++ kind
  else kind

/-- `getK8sObjectFilenameFull` from the source: short name plus
api-group-qualified kind plus `.yaml`. -/
def getK8sObjectFilenameFull (obj : K8sObject) : Str :=
  getShortName obj ++ ['_'] ++ qualifiedKind obj ++ lit ".yaml"

/-- `getGeneratorObjectShortFilenameByKey` from the source. -/
def getGeneratorObjectShortFilenameByKey (_obj : K8sObject) (key : Str) : Str :=
  key

/-- `getGeneratorObjectShortFilenameByKeyAndKind` from the source. -/
def getGeneratorObjectShortFilenameByKeyAndKind (obj : K8sObject) (key : Str) : Str :=
  toLowerStr obj.kind ++ ['_'] ++ key

/-- `getGeneratorObjectFilenameByKeyAndName` from the source. -/
def getGeneratorObjectFilenameByKeyAndName (obj : K8sObject) (key : Str) : Str :=
  getShortName obj ++ ['_'] ++ key

/-- `getGeneratorObjectFilenameFull` from the source. -/
def getGeneratorObjectFilenameFull (obj : K8sObject) (key : Str) : Str :=
  getShortName obj ++ ['_'] ++ toLowerStr obj.kind ++ ['_'] ++ key

/-- `isUniqueFilenameFuncForK8sObjects` from the source: apply the strategy to
every object of the batch and accept exactly when all names are non-empty,
pairwise distinct, and absent from the reserved set (the source's early-exit
loop computes the same acceptance). -/
def acceptK8s (objects : List K8sObject) (uniq : List Str)
    (f : K8sObject → Str) : Option (List Str) :=
  let ns := objects.map f
  if validNames ns uniq then some ns else none

/-- The `(owning object, key)` pairs of a file-group batch, in the nested
iteration order of `isUniqueFilenameFunc`. -/
def filePairs (objects : List FilesObject) : List (K8sObject × Str) :=
  objects.flatMap (fun fo => fo.files.map (fun kd => (fo.k8sObject, kd.1)))

/-- `isUniqueFilenameFunc` from the source, with the same acceptance
conditions as `acceptK8s`, ranging over every key of every file group. -/
def acceptFiles (objects : List FilesObject) (uniq : List Str)
    (f : K8sObject → Str → Str) : Option (List Str) :=
  let ns := (filePairs objects).map (fun p => f p.1 p.2)
  if validNames ns uniq then some ns else none

/-- The refinement step of `selectUniqueFilenameFuncForK8sObjects`: compute
the common prefix of the accepted names, strip through its last separator,
and keep the refined names when they re-validate; the reserved set grows by
the names actually chosen. -/
def refineK8s (objects : List K8sObject) (uniq : List Str)
    (f : K8sObject → Str) (items : List Str) :
    (K8sObject → Str) × List Str :=
  let p := longestCommonPref items
  if p = [] then (f, uniq ++ items)
  else
    match indexOfSeparator p with
    | none => (f, uniq ++ items)
    | some idx =>
      let nf := fun o => trimPref (f o) (p.take idx)
      match acceptK8s objects uniq nf with
      | some newItems => (nf, uniq ++ newItems)
      | none => (f, uniq ++ items)

/-- `selectUniqueFilenameFuncForK8sObjects` from the source: try the five
whole-resource strategies in order; the first strategy (definition kinds)
wins without refinement, every other accepted strategy goes through
`refineK8s`.  Returns the chosen naming function together with the grown
reserved set, or `none` when no strategy is accepted. -/
def selectK8s (objects : List K8sObject) (uniq : List Str) :
    Option ((K8sObject → Str) × List Str) :=
  match acceptK8s objects uniq getCRDFilename with
  | some items => some (getCRDFilename, uniq ++ items)
  | none =>
  match acceptK8s objects uniq getK8sObjectShortFilenameByKind with
  | some items => some (refineK8s objects uniq getK8sObjectShortFilenameByKind items)
  | none =>
  match acceptK8s objects uniq getK8sObjectShortFilenameByName with
  | some items => some (refineK8s objects uniq getK8sObjectShortFilenameByName items)
  | none =>
  match acceptK8s objects uniq getK8sObjectShortFilenameByNameAndKind with
  | some items => some (refineK8s objects uniq getK8sObjectShortFilenameByNameAndKind items)
  | none =>
  match acceptK8s objects uniq getK8sObjectFilenameFull with
  | some items => some (refineK8s objects uniq getK8sObjectFilenameFull items)
  | none => none

/-- The refinement step as the specification words it, identical to
`refineK8s` except that the common prefix is `lcpSpec` (defined for any
batch, a singleton's prefix being the name itself). -/
def refineK8sSpec (objects : List K8sObject) (uniq : List Str)
    (f : K8sObject → Str) (items : List Str) :
    (K8sObject → Str) × List Str :=
  let p := lcpSpec items
  if p = [] then (f, uniq ++ items)
  else
    match indexOfSeparator p with
    | none => (f, uniq ++ items)
    | some idx =>
      let nf := fun o => trimPref (f o) (p.take idx)
      match acceptK8s objects uniq nf with
      | some newItems => (nf, uniq ++ newItems)
      | none => (f, uniq ++ items)

/-- Whole-resource strategy selection as the specification words it: the same
ordered strategies and acceptance conditions, but with the refinement taken
over the specification's common prefix (`lcpSpec`). -/
def selectK8sSpec (objects : List K8sObject) (uniq : List Str) :
    Option ((K8sObject → Str) × List Str) :=
  match acceptK8s objects uniq getCRDFilename with
  | some items => some (getCRDFilename, uniq ++ items)
  | none =>
  match acceptK8s objects uniq getK8sObjectShortFilenameByKind with
  | some items => some (refineK8sSpec objects uniq getK8sObjectShortFilenameByKind items)
  | none =>
  match acceptK8s objects uniq getK8sObjectShortFilenameByName with
  | some items => some (refineK8sSpec objects uniq getK8sObjectShortFilenameByName items)
  | none =>
  match acceptK8s objects uniq getK8sObjectShortFilenameByNameAndKind with
  | some items => some (refineK8sSpec objects uniq getK8sObjectShortFilenameByNameAndKind items)
  | none =>
  match acceptK8s objects uniq getK8sObjectFilenameFull with
  | some items => some (refineK8sSpec objects uniq getK8sObjectFilenameFull items)
  | none => none

/-- Observable outcome of `selectK8s`: the filenames the chosen strategy
assigns to the batch, in batch order. -/
def selectK8sNames (objects : List K8sObject) (uniq : List Str) :
    Option (List Str) :=
  (selectK8s objects uniq).map (fun r => objects.map r.1)

/-- Observable outcome of `selectK8sSpec`. -/
def selectK8sSpecNames (objects : List K8sObject) (uniq : List Str) :
    Option (List Str) :=
  (selectK8sSpec objects uniq).map (fun r => objects.map r.1)

/-- The file-group refinement step of `selectUniqueFilenameFuncForFiles`. -/
def refineFiles (objects : List FilesObject) (uniq : List Str)
    (f : K8sObject → Str → Str) (items : List Str) :
    (K8sObject → Str → Str) × List Str :=
  let p := longestCommonPref items
  if p = [] then (f, uniq ++ items)
  else
    match indexOfSeparator p with
    | none => (f, uniq ++ items)
    | some idx =>
      let nf := fun o k => trimPref (f o k) (p.take idx)
      match acceptFiles objects uniq nf with
      | some newItems => (nf, uniq ++ newItems)
      | none => (f, uniq ++ items)

/-- `selectUniqueFilenameFuncForFiles` from the source: the four file-group
strategies in order, each accepted strategy going through refinement. -/
def selectFiles (objects : List FilesObject) (uniq : List Str) :
    Option ((K8sObject → Str → Str) × List Str) :=
  match acceptFiles objects uniq getGeneratorObjectShortFilenameByKey with
  | some items => some (refineFiles objects uniq getGeneratorObjectShortFilenameByKey items)
  | none =>
  match acceptFiles objects uniq getGeneratorObjectShortFilenameByKeyAndKind with
  | some items => some (refineFiles objects uniq getGeneratorObjectShortFilenameByKeyAndKind items)
  | none =>
  match acceptFiles objects uniq getGeneratorObjectFilenameByKeyAndName with
  | some items => some (refineFiles objects uniq getGeneratorObjectFilenameByKeyAndName items)
  | none =>
  match acceptFiles objects uniq getGeneratorObjectFilenameFull with
  | some items => some (refineFiles objects uniq getGeneratorObjectFilenameFull items)
  | none => none

/-- Model of Go's `%q` escaping for one character (printable-ASCII model of
`strconv.Quote`, which the manifest writer applies to label and annotation
entries). -/
def goEscapeChar (c : Char) : Str :=
  if c = '"' then ['\\', '"']
  else if c = '\\' then ['\\', '\\']
  else if c = '\n' then ['\\', 'n']
  else if c = '\t' then ['\\', 't']
  else if c = '\r' then ['\\', 'r']
  else [c]

/-- Model of Go's `%q`: the escaped string in double quotes. -/
def goQuote (s : Str) : Str :=
  '"' :: s.flatMap goEscapeChar ++ ['"']

/-- `writeMapFields` from the source: a two-space-indented block listing the
map's entries, quoted, in iteration order; empty for an empty map. -/
def mapFieldsBlock (fieldName : Str) (m : List (Str × Str)) : Str :=
  if m = [] then []
  else
    lit "    " ++ fieldName ++ lit ":\n" ++
      m.flatMap (fun kv =>
        lit "      " ++ goQuote kv.1 ++ lit ": " ++ goQuote kv.2 ++ lit "\n")

/-- One generator entry of `writeGenerators` from the source, including the
`files:` block emitted by `writeFiles` (an entry is rendered `key=name` when
the resolved name differs from the key, bare `key` otherwise). -/
def genEntry (genType : Str) (fo : FilesObject) (f : K8sObject → Str → Str) : Str :=
  lit "- name: " ++ fo.k8sObject.metadata.name ++ lit "\n" ++
  (if fo.k8sObject.metadata.namespace_ = [] then []
   else lit "  namespace: " ++ fo.k8sObject.metadata.namespace_ ++ lit "\n") ++
  (if genType = lit "secretGenerator" ∧ fo.k8sObject.type_ ≠ [] then
     lit "  type: " ++ fo.k8sObject.type_ ++ lit "\n"
   else []) ++
  lit "  options:\n    disableNameSuffixHash: true\n" ++
  mapFieldsBlock (lit "annotations") fo.k8sObject.metadata.anns ++
  mapFieldsBlock (lit "labels") fo.k8sObject.metadata.labels ++
  (if fo.k8sObject.immutable then lit "    immutable: true\n" else []) ++
  lit "  files:\n" ++
  fo.files.flatMap (fun kd =>
    let n := f fo.k8sObject kd.1
    if n ≠ kd.1 then lit "  - " ++ kd.1 ++ ['='] ++ n ++ lit "\n"
    else lit "  - " ++ kd.1 ++ lit "\n")

/-- The buffered text of a whole generator section of `writeGenerators`. -/
def genBlock (genType : Str) (objects : List FilesObject)
    (f : K8sObject → Str → Str) : Str :=
  if objects = [] then []
  else ['\n'] ++ genType ++ lit ":\n" ++ objects.flatMap (fun fo => genEntry genType fo f)

/-- The buffered `resources:` section of `writeResources` from the source:
sub-directory references first, then the resolved generic-resource
filenames. -/
def resourcesBlock (resources : List Str) (objects : List K8sObject)
    (f : K8sObject → Str) : Str :=
  if resources = [] ∧ objects = [] then []
  else
    lit "\nresources:\n" ++
      resources.flatMap (fun r => lit "- " ++ r ++ lit "\n") ++
      objects.flatMap (fun o => lit "- " ++ f o ++ lit "\n")

/-- The write calls issued while `writeResources` runs: each generic
resource's raw bytes at its resolved filename, in insertion order. -/
def resourceWrites (objects : List K8sObject) (f : K8sObject → Str) :
    List (Str × FileData) :=
  objects.map (fun o => (f o, FileData.str o.raw))

/-- The write calls issued by `writeFiles` for one file group: each entry's
payload at its resolved filename, in the files map's iteration order. -/
def filesWrites (f : K8sObject → Str → Str) (obj : K8sObject)
    (files : List (Str × FileData)) : List (Str × FileData) :=
  files.map (fun kd => (f obj kd.1, kd.2))

/-- The write calls issued while `writeGenerators` runs over a whole
category. -/
def genWrites (objects : List FilesObject) (f : K8sObject → Str → Str) :
    List (Str × FileData) :=
  objects.flatMap (fun fo => filesWrites f fo.k8sObject fo.files)

/-- Per-directory accumulator (the fields of `kustomizationBuilder` from the
source). -/
structure Agg where
  k8sObjects : List K8sObject := []
  configMapObjects : List FilesObject := []
  secretObjects : List FilesObject := []
  resources : List Str := []
deriving DecidableEq

/-- The reserved-name set a directory's `Build` starts from: the literal
manifest filename plus the sub-directory references. -/
def initUniq (resources : List Str) : List Str :=
  lit "kustomization.yaml" :: resources

/-- The three strategy selections of `kustomizationBuilder.Build`, threading
the reserved-name set from the given starting set through the generic batch,
the ConfigMap batch and the Secret batch. -/
def dirResolveFrom (agg : Agg) (uniq : List Str) :
    Option ((K8sObject → Str) × (K8sObject → Str → Str) × (K8sObject → Str → Str) × List Str) :=
  match selectK8s agg.k8sObjects uniq with
  | none => none
  | some (f1, u1) =>
  match selectFiles agg.configMapObjects u1 with
  | none => none
  | some (f2, u2) =>
  match selectFiles agg.secretObjects u2 with
  | none => none
  | some (f3, u3) => some (f1, f2, f3, u3)

/-- The manifest bytes `kustomizationBuilder.Build` accumulates in its
buffer. -/
def manifestOf (agg : Agg) (f1 : K8sObject → Str)
    (f2 f3 : K8sObject → Str → Str) : Str :=
  lit "apiVersion: kustomize.config.k8s.io/v1beta1\nkind: Kustomization\n" ++
  resourcesBlock agg.resources agg.k8sObjects f1 ++
  genBlock (lit "configMapGenerator") agg.configMapObjects f2 ++
  genBlock (lit "secretGenerator") agg.secretObjects f3

/-- `kustomizationBuilder.Build` from the source: resolve the three batches
against a reserved set seeded by `initUniq`, then emit the generic-resource
writes, the ConfigMap-entry writes, the Secret-entry writes, and finally the
directory's own `kustomization.yaml`.  `none` is the source's "no unique
filename" error, raised before anything is written. -/
def dirBuild (agg : Agg) : Option (List (Str × FileData)) :=
  match dirResolveFrom agg (initUniq agg.resources) with
  | none => none
  | some (f1, f2, f3, _) =>
    some (resourceWrites agg.k8sObjects f1 ++
          genWrites agg.configMapObjects f2 ++
          genWrites agg.secretObjects f3 ++
          [(lit "kustomization.yaml", FileData.str (manifestOf agg f1 f2 f3))])

/-- The loop of `Builder.Build` from the source: build each directory in
list order, tagging every write with its directory; a directory whose
resolution fails aborts the remaining directories (`false` flag). -/
def buildAll : List (Str × Agg) → List (Str × Str × FileData) × Bool
  | [] => ([], true)
  | (d, agg) :: rest =>
    match dirBuild agg with
    | none => ([], false)
    | some ws =>
      let r := buildAll rest
      (ws.map (fun nc => (d, nc.1, nc.2)) ++ r.1, r.2)

/-- `Builder.Build` from the source: directories are processed in sorted
name order. -/
def builderBuild (dirs : List (Str × Agg)) : List (Str × Str × FileData) × Bool :=
  buildAll (List.insertionSort (fun a b => strLe a.1 b.1 = true) dirs)

/-- The `(directory, filename)` pairs of a write sequence. -/
def writePairs (ws : List (Str × Str × FileData)) : List (Str × Str) :=
  ws.map (fun w => (w.1, w.2.1))

/-- `getTargetDir` from the source: CustomResourceDefinitions route to `crd`,
otherwise the first non-empty label in priority order wins, otherwise the
root directory. -/
def getTargetDir (obj : K8sObject) : Str :=
  if obj.apiVersion = lit "apiextensions.k8s.io/v1" ∧ obj.kind = lit "CustomResourceDefinition" then
    lit "crd"
  else
    let labels := obj.metadata.labels
    if lookupD labels (lit "app.kubernetes.io/component") ≠ [] then
      lookupD labels (lit "app.kubernetes.io/component")
    else if lookupD labels (lit "component") ≠ [] then
      lookupD labels (lit "component")
    else if lookupD labels (lit "app.kubernetes.io/name") ≠ [] then
      lookupD labels (lit "app.kubernetes.io/name")
    else if lookupD labels (lit "app") ≠ [] then
      lookupD labels (lit "app")
    else []

/-- The label keys the router inspects, in priority order. -/
def routePriorityKeys : List Str :=
  [lit "app.kubernetes.io/component", lit "component",
   lit "app.kubernetes.io/name", lit "app"]

/-- The first non-empty value of a list of label values; the empty string
when every value is missing or empty. -/
def firstNonEmpty : List Str → Str
  | [] => []
  | v :: rest => if v ≠ [] then v else firstNonEmpty rest

/-- Routing as the specification words it: `crd` for definition kinds, else
the first non-empty value among the priority labels, else the root
directory. -/
def getTargetDirSpec (obj : K8sObject) : Str :=
  if obj.apiVersion = lit "apiextensions.k8s.io/v1" ∧ obj.kind = lit "CustomResourceDefinition" then
    lit "crd"
  else
    firstNonEmpty (routePriorityKeys.map (lookupD obj.metadata.labels))

/-- Value of one standard-base64 alphabet character. -/
def b64Val (c : Char) : Option Nat :=
  if 'A' ≤ c ∧ c ≤ 'Z' then some (c.toNat - 65)
  else if 'a' ≤ c ∧ c ≤ 'z' then some (c.toNat - 71)
  else if '0' ≤ c ∧ c ≤ '9' then some (c.toNat + 4)
  else if c = '+' then some 62
  else if c = '/' then some 63
  else none

/-- Decode one four-character base64 quantum without padding. -/
def b64Quantum (c1 c2 c3 c4 : Char) : Option (List Nat) :=
  match b64Val c1, b64Val c2, b64Val c3, b64Val c4 with
  | some v1, some v2, some v3, some v4 =>
    some [v1 * 4 + v2 / 16, (v2 % 16) * 16 + v3 / 4, (v3 % 4) * 64 + v4]
  | _, _, _, _ => none

/-- Decode the final quantum when it carries `=` padding. -/
def b64Final (c1 c2 c3 c4 : Char) : Option (List Nat) :=
  if c3 = '=' then
    if c4 = '=' then
      match b64Val c1, b64Val c2 with
      | some v1, some v2 => some [v1 * 4 + v2 / 16]
      | _, _ => none
    else none
  else if c4 = '=' then
    match b64Val c1, b64Val c2, b64Val c3 with
    | some v1, some v2, some v3 => some [v1 * 4 + v2 / 16, (v2 % 16) * 16 + v3 / 4]
    | _, _, _ => none
  else b64Quantum c1 c2 c3 c4

/-- Quantum-by-quantum decoding: padding may occur only in the final
quantum, and the input length must be a multiple of four. -/
def b64DecodeGo : List Char → Option (List Nat)
  | [] => some []
  | c1 :: c2 :: c3 :: c4 :: rest =>
    if c3 = '=' ∨ c4 = '=' then
      if rest = [] then b64Final c1 c2 c3 c4 else none
    else
      match b64Quantum c1 c2 c3 c4, b64DecodeGo rest with
      | some bs, some more => some (bs ++ more)
      | _, _ => none
  | _ => none

/-- Model of `base64.StdEncoding.DecodeString` (which skips newline bytes
before decoding). -/
def base64Decode (s : Str) : Option (List Nat) :=
  b64DecodeGo (s.filter (fun c => ¬ (c = '\n' ∨ c = '\r')))

/-- The `Builder.dirs` map: directory name to accumulator, in creation
order. -/
abbrev BState := List (Str × Agg)

/-- The state `NewBuilder` starts from: only the root directory exists. -/
def initState : BState := [(([] : Str), ({} : Agg))]

/-- Update one directory's accumulator in place. -/
def updateDir (dirs : BState) (d : Str) (f : Agg → Agg) : BState :=
  dirs.map (fun p => if p.1 = d then (p.1, f p.2) else p)

/-- `Builder.getKustomization`'s directory creation: a directory seen for the
first time is added and recorded as a sub-directory reference of the root
aggregator. -/
def ensureDirExists (dirs : BState) (d : Str) : BState :=
  if (dirs.map Prod.fst).contains d then dirs
  else updateDir dirs [] (fun a => { a with resources := a.resources ++ [d] }) ++ [(d, ({} : Agg))]

/-- `Builder.handleGenericResource` from the source. -/
def handleGenericResource (dirs : BState) (obj : K8sObject) : BState :=
  let d := getTargetDir obj
  updateDir (ensureDirExists dirs d) d
    (fun a => { a with k8sObjects := a.k8sObjects ++ [obj] })

/-- The file-group map `Builder.handleConfigMap` builds: plain entries from
`data` first, then base64-decoded entries from `binaryData`, each assignment
overwriting any previous entry for the same key; a malformed base64 payload
is a fatal error. -/
def mkConfigMapFiles (obj : K8sObject) : Except Str (List (Str × FileData)) :=
  let base := obj.data.foldl (fun fs kv => goInsert fs kv.1 (FileData.str kv.2)) []
  obj.binaryData.foldlM
    (fun fs (kv : Str × Str) =>
      match base64Decode kv.2 with
      | none => Except.error (lit "illegal base64 data")
      | some bs => Except.ok (goInsert fs kv.1 (FileData.bin bs)))
    base

/-- The file-group map `Builder.handleSecret` builds: base64-decoded entries
from `data` first, then plain entries from `stringData`, each assignment
overwriting any previous entry for the same key. -/
def mkSecretFiles (obj : K8sObject) : Except Str (List (Str × FileData)) :=
  (obj.data.foldlM
    (fun fs (kv : Str × Str) =>
      match base64Decode kv.2 with
      | none => Except.error (lit "illegal base64 data")
      | some bs => Except.ok (goInsert fs kv.1 (FileData.bin bs)))
    ([] : List (Str × FileData))).map
  (fun base => obj.stringData.foldl (fun fs (kv : Str × Str) => goInsert fs kv.1 (FileData.str kv.2)) base)

/-- `Builder.handleConfigMap` from the source. -/
def handleConfigMap (dirs : BState) (obj : K8sObject) : Except Str BState :=
  (mkConfigMapFiles obj).map (fun files =>
    let d := getTargetDir obj
    updateDir (ensureDirExists dirs d) d
      (fun a => { a with configMapObjects := a.configMapObjects ++ [⟨obj, files⟩] }))

/-- `Builder.handleSecret` from the source. -/
def handleSecret (dirs : BState) (obj : K8sObject) : Except Str BState :=
  (mkSecretFiles obj).map (fun files =>
    let d := getTargetDir obj
    updateDir (ensureDirExists dirs d) d
      (fun a => { a with secretObjects := a.secretObjects ++ [⟨obj, files⟩] }))

/-- `Builder.handleResourceType` from the source. -/
def handleResourceType (dirs : BState) (obj : K8sObject) : Except Str BState :=
  if obj.apiVersion = lit "v1" ∧ obj.kind = lit "ConfigMap" then handleConfigMap dirs obj
  else if obj.apiVersion = lit "v1" ∧ obj.kind = lit "Secret" then handleSecret dirs obj
  else Except.ok (handleGenericResource dirs obj)

/-- `parseYAMLObject` from the source, over an abstract structural decoder
`um` standing for `yaml.Unmarshal`: a decode failure is propagated, a decoded
object lacking kind, apiVersion, or name is reported as skipped (`none`). -/
def parseYAMLObject (um : Str → Except Str K8sObject) (data : Str) :
    Except Str (Option K8sObject) :=
  match um data with
  | Except.error e => Except.error e
  | Except.ok obj =>
    if obj.kind = [] ∨ obj.apiVersion = [] ∨ obj.metadata.name = [] then
      Except.ok none
    else Except.ok (some obj)

/-- The loop of `Builder.Process` from the source, over the scanner's
documents: trim each document, skip blank ones, parse, skip identity-less
ones, and dispatch the rest; the first error aborts the remaining
documents.  Each processed object carries its trimmed bytes as `raw`. -/
def processDocs (um : Str → Except Str K8sObject) :
    BState → List Str → Except Str BState
  | s, [] => Except.ok s
  | s, d :: rest =>
    let t := trimAscii d
    if t = [] then processDocs um s rest
    else
      match parseYAMLObject um t with
      | Except.error e => Except.error e
      | Except.ok none => processDocs um s rest
      | Except.ok (some obj) =>
        match handleResourceType s { obj with raw := t } with
        | Except.error e => Except.error e
        | Except.ok s' => processDocs um s' rest

/-- `yamlSeparator` from the source: the marker searched for is a newline
followed by three dashes. -/
def yamlSeparator : List Char := lit "\n---"

/-- Index of the first occurrence of the byte `t` in a string
(`bytes.IndexByte`). -/
def indexByte (t : Char) : List Char → Option Nat
  | [] => none
  | c :: rest => if c = t then some 0 else (indexByte t rest).map (· + 1)

/-- Index of the first occurrence of `pat` in `s` (`bytes.Index`). -/
def findSub (pat : List Char) : List Char → Option Nat
  | [] => if pat = [] then some 0 else none
  | c :: rest =>
    if pat.isPrefixOf (c :: rest) then some 0
    else (findSub pat rest).map (· + 1)

/-- `splitYAMLDocument` from the source, at end of stream (the scanner's
non-EOF calls only request more data): `none` is "no further token", and
`some (advance, token)` consumes `advance` bytes and emits `token`.  A found
separator consumes through the next newline and emits the bytes before the
marker; with no newline after the marker the scanner stops; with no marker
the remaining bytes are the final document. -/
def splitYAMLDocument (data : List Char) : Option (Nat × List Char) :=
  if data = [] then none
  else
    match findSub yamlSeparator data with
    | some i0 =>
      let i := i0 + 4
      let after := data.drop i
      if after = [] then some (data.length, data.take (data.length - 4))
      else
        match indexByte '\n' after with
        | some j => some (i + j + 1, data.take i0)
        | none => none
    | none => some (data.length, data)

/-- The scanner loop of `Builder.Process`: repeatedly apply
`splitYAMLDocument` to the remaining bytes, collecting the emitted
documents.  The fuel argument only bounds the recursion; `splitDocs` below
supplies enough for the whole input since every step consumes at least one
byte. -/
def splitDocsAux : Nat → List Char → List (List Char)
  | 0, _ => []
  | fuel + 1, data =>
    match splitYAMLDocument data with
    | none => []
    | some (adv, tok) => tok :: splitDocsAux fuel (data.drop adv)

/-- The full document sequence the scanner yields for the input. -/
def splitDocs (data : List Char) : List (List Char) :=
  splitDocsAux (data.length + 1) data

/-- Line splitting used to state the specification's reading of the
splitter. -/
def splitLines : List Char → List (List Char)
  | [] => [[]]
  | c :: rest =>
    if c = '\n' then [] :: splitLines rest
    else
      match splitLines rest with
      | l :: ls => (c :: l) :: ls
      | [] => [[c]]

/-- The splitter as the claim words it: a boundary exactly at a line that is
the three-dash marker immediately followed by a newline or the end of the
stream, the documents being the spans between such separator lines. -/
def claimSplit (s : List Char) : List (List Char) :=
  ((splitLines s).splitOn (lit "---")).map (List.intercalate ['\n'])

/-- A Deployment named `x` in namespace `n1` (example input). -/
def exDep1 : K8sObject :=
  { kind := lit "Deployment", apiVersion := lit "apps/v1",
    metadata := { namespace_ := lit "n1", name := lit "x" }, raw := lit "rawX" }

/-- A second Deployment with the same name, kind and apiVersion but another
namespace (example input). -/
def exDep2 : K8sObject :=
  { kind := lit "Deployment", apiVersion := lit "apps/v1",
    metadata := { namespace_ := lit "n2", name := lit "x" }, raw := lit "rawY" }

/-- Builder state with two sub-directories `a` and `b`, each holding one
Deployment of the same kind and name (example input). -/
def exDirsC1 : List (Str × Agg) :=
  [(([] : Str), { resources := [lit "a", lit "b"] }),
   (lit "a", { k8sObjects := [exDep1] }),
   (lit "b", { k8sObjects := [exDep2] })]

/-- A ConfigMap named `app` (example input). -/
def exCM : K8sObject :=
  { kind := lit "ConfigMap", apiVersion := lit "v1",
    metadata := { name := lit "app" } }

/-- A two-entry file map in one iteration order (example input). -/
def exFiles1 : List (Str × FileData) :=
  [(lit "a", FileData.str (lit "1")), (lit "b", FileData.str (lit "2"))]

/-- The same file map in the opposite iteration order (example input). -/
def exFiles2 : List (Str × FileData) :=
  [(lit "b", FileData.str (lit "2")), (lit "a", FileData.str (lit "1"))]

/-- A directory holding `exCM` whose file map iterates as `exFiles1`. -/
def exAggCM1 : Agg := { configMapObjects := [⟨exCM, exFiles1⟩] }

/-- A directory holding `exCM` whose file map iterates as `exFiles2`. -/
def exAggCM2 : Agg := { configMapObjects := [⟨exCM, exFiles2⟩] }

/-- A Deployment named `web-server` (example input). -/
def exWebServer : K8sObject :=
  { kind := lit "Deployment", apiVersion := lit "apps/v1",
    metadata := { name := lit "web-server" }, raw := lit "rawWS" }

/-- A reserved set under which the bare-kind strategy is blocked, so a
singleton Deployment batch reaches the bare-short-name strategy. -/
def exUniqC5 : List Str := [lit "kustomization.yaml", lit "deployment.yaml"]

/-- A ConfigMap with the key `k` in both `data` and `binaryData` (`aGk=` is
base64 for the bytes `hi`). -/
def exCMDup : K8sObject :=
  { kind := lit "ConfigMap", apiVersion := lit "v1",
    metadata := { name := lit "cm" },
    data := [(lit "k", lit "x")], binaryData := [(lit "k", lit "aGk=")] }

/-- A Secret with the key `k` in both `data` and `stringData`. -/
def exSecretDup : K8sObject :=
  { kind := lit "Secret", apiVersion := lit "v1",
    metadata := { name := lit "sec" },
    data := [(lit "k", lit "aGk=")], stringData := [(lit "k", lit "plain")] }

/-- A structural decoder standing for `yaml.Unmarshal` in the examples: the
document `bad` is malformed, `noid` decodes to an object without identity
fields, anything else decodes to `exDep1`. -/
def exUm : Str → Except Str K8sObject :=
  fun t =>
    if t = lit "bad" then Except.error (lit "boom")
    else if t = lit "noid" then Except.ok { kind := lit "ConfigMap" }
    else Except.ok exDep1

/-- Pointwise `charEqual` equivalence of two strings: same length and each
position related.  This is the equivalence the refinement step respects:
two common-prefix candidates that differ only in `-` versus `_` strip the
same characters. -/
def chEq (s t : Str) : Prop :=
  List.Forall₂ (fun a b => charEqual a b = true) s t

/-- Two file groups that differ only in the iteration order of their files
map: the owning object is identical and the entry lists are permutations of
one another (two runs of `yaml.Unmarshal` plus map building on the same
input bytes). -/
def filesRel (a b : FilesObject) : Prop :=
  a.k8sObject = b.k8sObject ∧ a.files.Perm b.files

theorem nodupB_iff (l : List Str) : nodupB l = true ↔ l.Nodup := by
  induction l with
  | nil => simp [nodupB]
  | cons x xs ih => simp [nodupB, ih]

theorem validNames_iff (ns uniq : List Str) :
    validNames ns uniq = true ↔ ((∀ n ∈ ns, n ≠ [] ∧ n ∉ uniq) ∧ ns.Nodup) := by
  simp [validNames, nodupB_iff, List.all_eq_true, List.isEmpty_iff, and_assoc]

theorem acceptK8s_eq_some {objects : List K8sObject} {uniq : List Str}
    {f : K8sObject → Str} {items : List Str}
    (h : acceptK8s objects uniq f = some items) :
    items = objects.map f ∧ validNames (objects.map f) uniq = true := by
  simp only [acceptK8s] at h
  split at h
  · exact ⟨(Option.some.injEq _ _ ▸ h).symm, by assumption⟩
  · exact absurd h (by simp)

theorem acceptFiles_eq_some {objects : List FilesObject} {uniq : List Str}
    {f : K8sObject → Str → Str} {items : List Str}
    (h : acceptFiles objects uniq f = some items) :
    items = (filePairs objects).map (fun p => f p.1 p.2) ∧
    validNames ((filePairs objects).map (fun p => f p.1 p.2)) uniq = true := by
  simp only [acceptFiles] at h
  split at h
  · exact ⟨(Option.some.injEq _ _ ▸ h).symm, by assumption⟩
  · exact absurd h (by simp)

theorem refineK8s_sound {objects : List K8sObject} {uniq : List Str}
    {f : K8sObject → Str} {items : List Str} {g : K8sObject → Str} {u' : List Str}
    (h : acceptK8s objects uniq f = some items)
    (hr : refineK8s objects uniq f items = (g, u')) :
    acceptK8s objects uniq g = some (objects.map g) ∧ u' = uniq ++ objects.map g := by
  obtain ⟨hi, hv⟩ := acceptK8s_eq_some h
  subst hi
  simp only [refineK8s] at hr
  split at hr
  · cases hr
    exact ⟨h, rfl⟩
  · split at hr
    · cases hr
      exact ⟨h, rfl⟩
    · split at hr
      · rename_i newItems hn
        obtain ⟨hni, _⟩ := acceptK8s_eq_some hn
        cases hr
        exact ⟨hni ▸ hn, by rw [← hni]⟩
      · cases hr
        exact ⟨h, rfl⟩

theorem refineFiles_sound {objects : List FilesObject} {uniq : List Str}
    {f : K8sObject → Str → Str} {items : List Str} {g : K8sObject → Str → Str} {u' : List Str}
    (h : acceptFiles objects uniq f = some items)
    (hr : refineFiles objects uniq f items = (g, u')) :
    acceptFiles objects uniq g = some ((filePairs objects).map (fun p => g p.1 p.2)) ∧
    u' = uniq ++ (filePairs objects).map (fun p => g p.1 p.2) := by
  obtain ⟨hi, hv⟩ := acceptFiles_eq_some h
  subst hi
  simp only [refineFiles] at hr
  split at hr
  · cases hr
    exact ⟨h, rfl⟩
  · split at hr
    · cases hr
      exact ⟨h, rfl⟩
    · split at hr
      · rename_i newItems hn
        obtain ⟨hni, _⟩ := acceptFiles_eq_some hn
        cases hr
        exact ⟨hni ▸ hn, by rw [← hni]⟩
      · cases hr
        exact ⟨h, rfl⟩

theorem selectK8s_sound {objects : List K8sObject} {uniq : List Str}
    {f : K8sObject → Str} {u' : List Str}
    (h : selectK8s objects uniq = some (f, u')) :
    acceptK8s objects uniq f = some (objects.map f) ∧ u' = uniq ++ objects.map f := by
  unfold selectK8s at h
  split at h
  · rename_i items ha
    obtain ⟨hi, hv⟩ := acceptK8s_eq_some ha
    cases h
    exact ⟨hi ▸ ha, by rw [← hi]⟩
  · split at h
    · rename_i items ha
      exact refineK8s_sound ha (Option.some.inj h)
    · split at h
      · rename_i items ha
        exact refineK8s_sound ha (Option.some.inj h)
      · split at h
        · rename_i items ha
          exact refineK8s_sound ha (Option.some.inj h)
        · split at h
          · rename_i items ha
            exact refineK8s_sound ha (Option.some.inj h)
          · cases h

theorem selectFiles_sound {objects : List FilesObject} {uniq : List Str}
    {f : K8sObject → Str → Str} {u' : List Str}
    (h : selectFiles objects uniq = some (f, u')) :
    acceptFiles objects uniq f = some ((filePairs objects).map (fun p => f p.1 p.2)) ∧
    u' = uniq ++ (filePairs objects).map (fun p => f p.1 p.2) := by
  unfold selectFiles at h
  split at h
  · rename_i items ha
    exact refineFiles_sound ha (Option.some.inj h)
  · split at h
    · rename_i items ha
      exact refineFiles_sound ha (Option.some.inj h)
    · split at h
      · rename_i items ha
        exact refineFiles_sound ha (Option.some.inj h)
      · split at h
        · rename_i items ha
          exact refineFiles_sound ha (Option.some.inj h)
        · cases h

theorem resourceWrites_names (objects : List K8sObject) (f : K8sObject → Str) :
    (resourceWrites objects f).map Prod.fst = objects.map f := by
  simp [resourceWrites, List.map_map]

theorem genWrites_names (objects : List FilesObject) (f : K8sObject → Str → Str) :
    (genWrites objects f).map Prod.fst = (filePairs objects).map (fun p => f p.1 p.2) := by
  simp [genWrites, filesWrites, filePairs, List.map_flatMap, List.map_map]
  rfl

theorem dirResolveFrom_sound {agg : Agg} {uniq : List Str}
    {f1 : K8sObject → Str} {f2 f3 : K8sObject → Str → Str} {u3 : List Str}
    (h : dirResolveFrom agg uniq = some (f1, f2, f3, u3)) :
    validNames (agg.k8sObjects.map f1) uniq = true ∧
    validNames ((filePairs agg.configMapObjects).map (fun p => f2 p.1 p.2))
      (uniq ++ agg.k8sObjects.map f1) = true ∧
    validNames ((filePairs agg.secretObjects).map (fun p => f3 p.1 p.2))
      (uniq ++ agg.k8sObjects.map f1 ++
        (filePairs agg.configMapObjects).map (fun p => f2 p.1 p.2)) = true ∧
    u3 = uniq ++ agg.k8sObjects.map f1 ++
      (filePairs agg.configMapObjects).map (fun p => f2 p.1 p.2) ++
      (filePairs agg.secretObjects).map (fun p => f3 p.1 p.2) := by
  unfold dirResolveFrom at h
  split at h
  · cases h
  · rename_i r1 hs1
    split at h
    · cases h
    · rename_i r2 hs2
      split at h
      · cases h
      · rename_i r3 hs3
        cases h
        obtain ⟨ha1, hu1⟩ := selectK8s_sound hs1
        obtain ⟨ha2, hu2⟩ := selectFiles_sound (hu1 ▸ hs2)
        obtain ⟨ha3, hu3⟩ := selectFiles_sound (hu2 ▸ hs3)
        exact ⟨(acceptK8s_eq_some ha1).2, (acceptFiles_eq_some ha2).2,
          (acceptFiles_eq_some ha3).2, hu3⟩

theorem dirBuild_names_nodup {agg : Agg} {ws : List (Str × FileData)}
    (h : dirBuild agg = some ws) : (ws.map Prod.fst).Nodup := by
  unfold dirBuild at h
  split at h
  · cases h
  · rename_i r f1 f2 f3 u3 hr
    cases h
    obtain ⟨hv1, hv2, hv3, _⟩ := dirResolveFrom_sound hr
    rw [validNames_iff] at hv1 hv2 hv3
    simp only [List.map_append, resourceWrites_names, genWrites_names,
      List.map_cons, List.map_nil, Prod.fst]
    generalize hg1 : agg.k8sObjects.map f1 = ns1 at *
    generalize hg2 : (filePairs agg.configMapObjects).map (fun p => f2 p.1 p.2) = ns2 at *
    generalize hg3 : (filePairs agg.secretObjects).map (fun p => f3 p.1 p.2) = ns3 at *
    obtain ⟨hp1, hn1⟩ := hv1
    obtain ⟨hp2, hn2⟩ := hv2
    obtain ⟨hp3, hn3⟩ := hv3
    have hkid : (lit "kustomization.yaml") ∈ initUniq agg.resources :=
      List.mem_cons_self _ _
    simp only [List.append_assoc]
    have d3k : List.Disjoint ns3 [lit "kustomization.yaml"] := by
      intro a ha hb
      rw [List.mem_singleton] at hb
      exact (hp3 a ha).2 (List.mem_append_left _ (List.mem_append_left _ (hb ▸ hkid)))
    have d2r : List.Disjoint ns2 (ns3 ++ [lit "kustomization.yaml"]) := by
      intro a ha hb
      rcases List.mem_append.mp hb with hb3 | hbk
      · exact (hp3 a hb3).2 (List.mem_append_right _ ha)
      · rw [List.mem_singleton] at hbk
        exact (hp2 a ha).2 (List.mem_append_left _ (hbk ▸ hkid))
    have d1r : List.Disjoint ns1 (ns2 ++ (ns3 ++ [lit "kustomization.yaml"])) := by
      intro a ha hb
      rcases List.mem_append.mp hb with hb2 | hb'
      · exact (hp2 a hb2).2 (List.mem_append_right _ ha)
      rcases List.mem_append.mp hb' with hb3 | hbk
      · exact (hp3 a hb3).2 (List.mem_append_left _ (List.mem_append_right _ ha))
      · rw [List.mem_singleton] at hbk
        exact (hp1 a ha).2 (hbk ▸ hkid)
    exact hn1.append (hn2.append (hn3.append (List.nodup_singleton _) d3k) d2r) d1r

theorem buildAll_dir_mem :
    ∀ (dirs : List (Str × Agg)) (w : Str × Str × FileData),
      w ∈ (buildAll dirs).1 → w.1 ∈ dirs.map Prod.fst := by
  intro dirs
  induction dirs with
  | nil => intro w hw; simp [buildAll] at hw
  | cons p rest ih =>
    intro w hw
    obtain ⟨d, agg⟩ := p
    cases hb : dirBuild agg with
    | none => simp [buildAll, hb] at hw
    | some ws =>
      simp only [buildAll, hb] at hw
      rcases List.mem_append.mp hw with hl | hr
      · obtain ⟨nc, _, hnc⟩ := List.mem_map.mp hl
        rw [← hnc]
        exact List.mem_cons_self d (rest.map Prod.fst)
      · exact List.mem_cons_of_mem d (ih w hr)

theorem buildAll_pairs_nodup :
    ∀ dirs : List (Str × Agg), (dirs.map Prod.fst).Nodup →
      (writePairs (buildAll dirs).1).Nodup := by
  intro dirs
  induction dirs with
  | nil => intro _; simp [buildAll, writePairs]
  | cons p rest ih =>
    intro hnd
    obtain ⟨d, agg⟩ := p
    simp only [List.map_cons, List.nodup_cons] at hnd
    have hrest := ih hnd.2
    cases hb : dirBuild agg with
    | none => simp [buildAll, hb, writePairs]
    | some ws =>
      simp only [buildAll, hb, writePairs, List.map_append, List.map_map]
      refine List.Nodup.append ?_ hrest ?_
      · have hnames := dirBuild_names_nodup hb
        have hshape :
            ws.map ((fun w : Str × Str × FileData => (w.1, w.2.1)) ∘
              (fun nc : Str × FileData => (d, nc.1, nc.2))) =
            (ws.map Prod.fst).map (fun n => (d, n)) := by
          simp [List.map_map]
        rw [hshape]
        exact hnames.map (fun a b hab => congrArg Prod.snd hab)
      · intro x hx hx'
        obtain ⟨nc, _, hnc⟩ := List.mem_map.mp hx
        obtain ⟨w, hw, hwx⟩ := List.mem_map.mp hx'
        have : w.1 ∈ rest.map Prod.fst := buildAll_dir_mem rest w hw
        have hx1 : x.1 = d := by simp [← hnc]
        have hx2 : x.1 = w.1 := by simp [← hwx]
        exact hnd.1 (by rw [← hx1, hx2]; exact this)

/-- Claim C6: for every directory the set of filenames written (generic
resource files, generator entry files, and `kustomization.yaml` itself) is
pairwise distinct, and the sink is never invoked twice with the same
`(directory, filename)` pair over the whole run of `Builder.Build`. -/
theorem c6_unique_write_pairs (dirs : List (Str × Agg))
    (h : (dirs.map Prod.fst).Nodup) :
    (writePairs (builderBuild dirs).1).Nodup := by
  unfold builderBuild
  apply buildAll_pairs_nodup
  exact ((List.perm_insertionSort _ dirs).map Prod.fst).symm.nodup h

/-- Witness for C6 at a concrete three-directory builder state. -/
theorem c6_witness : (writePairs (builderBuild exDirsC1).1).Nodup :=
  c6_unique_write_pairs exDirsC1 (by decide)

theorem buildAll_filter_eq :
    ∀ (dirs : List (Str × Agg)) (d : Str) (agg : Agg) (ws : List (Str × FileData)),
      (dirs.map Prod.fst).Nodup → (d, agg) ∈ dirs → (buildAll dirs).2 = true →
      dirBuild agg = some ws →
      (buildAll dirs).1.filter (fun w => decide (w.1 = d)) =
        ws.map (fun nc => (d, nc.1, nc.2)) := by
  intro dirs
  induction dirs with
  | nil => intro d agg ws _ hmem _ _; cases hmem
  | cons p rest ih =>
    intro d agg ws hnd hmem hok hws
    obtain ⟨d', agg'⟩ := p
    simp only [List.map_cons, List.nodup_cons] at hnd
    cases hb : dirBuild agg' with
    | none => simp [buildAll, hb] at hok
    | some ws' =>
      have hok' : (buildAll rest).2 = true := by
        simpa [buildAll, hb] using hok
      simp only [buildAll, hb, List.filter_append]
      rcases List.mem_cons.mp hmem with heq | hmemr
      · injection heq with h1 h2
        subst h1
        subst h2
        rw [hws] at hb
        cases hb
        have hhead : (ws.map (fun nc => (d, nc.1, nc.2))).filter
            (fun w => decide (w.1 = d)) = ws.map (fun nc => (d, nc.1, nc.2)) := by
          apply List.filter_eq_self.mpr
          intro w hw
          obtain ⟨nc, _, hnc⟩ := List.mem_map.mp hw
          rw [← hnc]
          simp
        have htail : ((buildAll rest).1).filter (fun w => decide (w.1 = d)) = [] := by
          apply List.filter_eq_nil_iff.mpr
          intro w hw
          have hmem' := buildAll_dir_mem rest w hw
          simp only [decide_eq_true_eq]
          intro hwd
          exact hnd.1 (hwd ▸ hmem')
        rw [hhead, htail, List.append_nil]
      · have hd'd : ¬ (d' = d) := by
          intro he
          subst he
          exact hnd.1 (List.mem_map.mpr ⟨(d', agg), hmemr, rfl⟩)
        have hhead : (ws'.map (fun nc => (d', nc.1, nc.2))).filter
            (fun w => decide (w.1 = d)) = [] := by
          apply List.filter_eq_nil_iff.mpr
          intro w hw
          obtain ⟨nc, _, hnc⟩ := List.mem_map.mp hw
          rw [← hnc]
          simpa using hd'd
        rw [hhead, ih d agg ws hnd.2 hmemr hok' hws, List.nil_append]

/-- Claim C8: in a successful run, the writes carrying a directory `d` are
exactly that directory's resolved block, whose final entry is the
directory's own manifest: every generic-resource payload and file-group
payload of `d` is pushed to the sink before `d`'s `kustomization.yaml`, and
no write to `d` occurs after its manifest. -/
theorem c8_payload_writes_precede_manifest (dirs : List (Str × Agg)) (d : Str)
    (agg : Agg) (ws : List (Str × FileData))
    (hnd : (dirs.map Prod.fst).Nodup) (hmem : (d, agg) ∈ dirs)
    (hok : (buildAll dirs).2 = true) (hws : dirBuild agg = some ws) :
    (buildAll dirs).1.filter (fun w => decide (w.1 = d)) =
      ws.map (fun nc => (d, nc.1, nc.2)) ∧
    ∃ pw m, ws = pw ++ [(lit "kustomization.yaml", FileData.str m)] := by
  refine ⟨buildAll_filter_eq dirs d agg ws hnd hmem hok hws, ?_⟩
  unfold dirBuild at hws
  split at hws
  · cases hws
  · rename_i r f1 f2 f3 u3 hr
    cases hws
    exact ⟨_, _, rfl⟩

/-- Witness for C8 at directory `a` of the concrete builder state. -/
theorem c8_witness :
    (buildAll exDirsC1).1.filter (fun w => decide (w.1 = lit "a")) =
      ((dirBuild (Agg.mk [exDep1] [] [] [])).getD []).map (fun nc => (lit "a", nc.1, nc.2)) ∧
    ∃ pw m, (dirBuild (Agg.mk [exDep1] [] [] [])).getD [] =
      pw ++ [(lit "kustomization.yaml", FileData.str m)] :=
  c8_payload_writes_precede_manifest exDirsC1 (lit "a") (Agg.mk [exDep1] [] [] [])
    ((dirBuild (Agg.mk [exDep1] [] [] [])).getD [])
    (by decide) (by decide) (by decide) (by rfl)

/-- Claim C1 (counterexample): the reserved-name set is not pipeline-wide.
In a successful run over three directories, directory `a` resolves and
reserves `deployment.yaml`, yet the later-resolved directory `b` assigns the
very same name, because `kustomizationBuilder.Build` creates a fresh
reserved set for every directory. -/
theorem c1_counterexample :
    (builderBuild exDirsC1).2 = true ∧
    (lit "a", lit "deployment.yaml") ∈ writePairs (builderBuild exDirsC1).1 ∧
    (lit "b", lit "deployment.yaml") ∈ writePairs (builderBuild exDirsC1).1 := by
  refine ⟨by decide, by decide, by decide⟩

/-- Claim C1 (amended): the reserved-name set is per-directory.  Within one
directory's resolution it grows monotonically: the starting set survives
into the final set, and every name assigned by any of the three accepted
batches is added to the final set before resolution finishes. -/
theorem c1_reserved_per_directory_monotone (agg : Agg) (uniq : List Str)
    (f1 : K8sObject → Str) (f2 f3 : K8sObject → Str → Str) (u3 : List Str)
    (h : dirResolveFrom agg uniq = some (f1, f2, f3, u3)) :
    (∀ x ∈ uniq, x ∈ u3) ∧
    (∀ o ∈ agg.k8sObjects, f1 o ∈ u3) ∧
    (∀ p ∈ filePairs agg.configMapObjects, f2 p.1 p.2 ∈ u3) ∧
    (∀ p ∈ filePairs agg.secretObjects, f3 p.1 p.2 ∈ u3) := by
  obtain ⟨_, _, _, hu⟩ := dirResolveFrom_sound h
  subst hu
  refine ⟨?_, ?_, ?_, ?_⟩
  · intro x hx
    exact List.mem_append_left _ (List.mem_append_left _ (List.mem_append_left _ hx))
  · intro o ho
    exact List.mem_append_left _ (List.mem_append_left _
      (List.mem_append_right _ (List.mem_map_of_mem f1 ho)))
  · intro p hp
    exact List.mem_append_left _ (List.mem_append_right _ (List.mem_map_of_mem _ hp))
  · intro p hp
    exact List.mem_append_right _ (List.mem_map_of_mem _ hp)

/-- Witness for the amended C1 at a concrete directory. -/
theorem c1_witness :
    (∀ x ∈ [lit "kustomization.yaml"],
       x ∈ [lit "kustomization.yaml", lit "a", lit "b"]) ∧
    (∀ o ∈ ([] : List K8sObject),
       getCRDFilename o ∈ [lit "kustomization.yaml", lit "a", lit "b"]) ∧
    (∀ p ∈ filePairs [⟨exCM, exFiles1⟩],
       getGeneratorObjectShortFilenameByKey p.1 p.2 ∈
         [lit "kustomization.yaml", lit "a", lit "b"]) ∧
    (∀ p ∈ filePairs ([] : List FilesObject),
       getGeneratorObjectShortFilenameByKey p.1 p.2 ∈
         [lit "kustomization.yaml", lit "a", lit "b"]) :=
  c1_reserved_per_directory_monotone (Agg.mk [] [⟨exCM, exFiles1⟩] [] [])
    [lit "kustomization.yaml"] getCRDFilename getGeneratorObjectShortFilenameByKey
    getGeneratorObjectShortFilenameByKey
    [lit "kustomization.yaml", lit "a", lit "b"] (by rfl)

/-- Claim C2 (counterexample): determinism down to manifest bytes fails.
The two file maps are permutations of each other — two legal iteration
orders of one and the same Go map, as produced by two runs on identical
input bytes — yet the final write of the directory's build (its
`kustomization.yaml`) differs byte-wise, because `writeFiles` emits the
`files:` entries in map iteration order. -/
theorem c2_counterexample :
    exFiles1.Perm exFiles2 ∧
    (dirBuild exAggCM1).map (fun ws => ws.getLast?) ≠
      (dirBuild exAggCM2).map (fun ws => ws.getLast?) := by
  refine ⟨by decide, by decide⟩

/-- Claim C3 (counterexample): the fifth whole-resource strategy is not a
guaranteed fallback.  Two distinct Deployments sharing name, kind and
apiVersion (differing only in namespace) receive identical strategy-5
filenames, so every strategy fails and
`selectUniqueFilenameFuncForK8sObjects` reports the unresolvable-naming
condition. -/
theorem c3_counterexample :
    getK8sObjectFilenameFull exDep1 = getK8sObjectFilenameFull exDep2 ∧
    exDep1 ≠ exDep2 ∧
    (selectK8s [exDep1, exDep2] [lit "kustomization.yaml"]).isSome = false := by
  refine ⟨by decide, by decide, by decide⟩

/-- Claim C3 (amended): strategy 5 always yields non-empty names, and
whenever its batch of names is accepted (pairwise distinct and absent from
the reserved set) whole-resource resolution succeeds; but resources sharing
short name and api-group-qualified kind defeat it, so resolution can fail
with the unresolvable-naming condition. -/
theorem c3_full_strategy_fallback :
    (∀ obj : K8sObject, getK8sObjectFilenameFull obj ≠ []) ∧
    (∀ (objects : List K8sObject) (uniq : List Str),
      (acceptK8s objects uniq getK8sObjectFilenameFull).isSome →
      (selectK8s objects uniq).isSome) := by
  constructor
  · intro obj h
    have : (getK8sObjectFilenameFull obj).length = 0 := by rw [h]; rfl
    rw [getK8sObjectFilenameFull] at this
    simp [lit] at this
  · intro objects uniq h5
    unfold selectK8s
    cases h1 : acceptK8s objects uniq getCRDFilename with
    | some items => simp
    | none =>
      cases h2 : acceptK8s objects uniq getK8sObjectShortFilenameByKind with
      | some items => simp
      | none =>
        cases h3 : acceptK8s objects uniq getK8sObjectShortFilenameByName with
        | some items => simp
        | none =>
          cases h4 : acceptK8s objects uniq getK8sObjectShortFilenameByNameAndKind with
          | some items => simp
          | none =>
            cases h5' : acceptK8s objects uniq getK8sObjectFilenameFull with
            | some items => simp
            | none => rw [h5'] at h5; cases h5

/-- Witness for the amended C3 at a concrete singleton batch. -/
theorem c3_witness :
    getK8sObjectFilenameFull exDep1 ≠ [] ∧
    (selectK8s [exDep1] ([] : List Str)).isSome :=
  ⟨c3_full_strategy_fallback.1 exDep1,
   c3_full_strategy_fallback.2 [exDep1] [] (by decide)⟩

theorem lcpSpec_eq_longestCommonPref {l : List Str} (h : 2 ≤ l.length) :
    lcpSpec l = longestCommonPref l := by
  match l with
  | [] => simp at h
  | [_] => simp at h
  | a :: b :: t => rfl

theorem refineK8sSpec_eq_refineK8s {objects : List K8sObject} {uniq : List Str}
    {f : K8sObject → Str} {items : List Str} (h : 2 ≤ items.length) :
    refineK8sSpec objects uniq f items = refineK8s objects uniq f items := by
  unfold refineK8sSpec refineK8s
  rw [lcpSpec_eq_longestCommonPref h]

/-- Claim C5 (amended): for batches of at least two resources the source's
refinement behaves exactly as the specification describes — common prefix
with `-`/`_` identified, strip through the last separator, keep the refined
names exactly when they re-validate — because for two or more names the
source's common prefix is the specification's.  (A single-name batch is
never refined: the source takes its common prefix to be empty.) -/
theorem c5_refinement_matches_spec (objects : List K8sObject) (uniq : List Str)
    (h : 2 ≤ objects.length) :
    selectK8s objects uniq = selectK8sSpec objects uniq := by
  unfold selectK8s selectK8sSpec
  have hlen : ∀ {g : K8sObject → Str} {items : List Str},
      acceptK8s objects uniq g = some items → 2 ≤ items.length := by
    intro g items ha
    obtain ⟨hi, _⟩ := acceptK8s_eq_some ha
    subst hi
    simpa using h
  cases h1 : acceptK8s objects uniq getCRDFilename with
  | some items => rfl
  | none =>
    cases h2 : acceptK8s objects uniq getK8sObjectShortFilenameByKind with
    | some items => simp only [refineK8sSpec_eq_refineK8s (hlen h2)]
    | none =>
      cases h3 : acceptK8s objects uniq getK8sObjectShortFilenameByName with
      | some items => simp only [refineK8sSpec_eq_refineK8s (hlen h3)]
      | none =>
        cases h4 : acceptK8s objects uniq getK8sObjectShortFilenameByNameAndKind with
        | some items => simp only [refineK8sSpec_eq_refineK8s (hlen h4)]
        | none =>
          cases h5 : acceptK8s objects uniq getK8sObjectFilenameFull with
          | some items => simp only [refineK8sSpec_eq_refineK8s (hlen h5)]
          | none => rfl

/-- Witness for the amended C5 at a concrete two-resource batch. -/
theorem c5_witness :
    selectK8s [exDep1, exWebServer] ([] : List Str) =
      selectK8sSpec [exDep1, exWebServer] ([] : List Str) :=
  c5_refinement_matches_spec [exDep1, exWebServer] [] (by decide)

/-- Claim C5 (counterexample): on a single-name batch the source never
refines, while the claim's reading — the longest common prefix of the
batch's names — would refine.  A lone Deployment `web-server` whose
bare-kind name is already reserved is assigned `web-server.yaml` by the
source, but `server.yaml` under the claim's refinement. -/
theorem c5_counterexample :
    selectK8sNames [exWebServer] exUniqC5 = some [lit "web-server.yaml"] ∧
    selectK8sSpecNames [exWebServer] exUniqC5 = some [lit "server.yaml"] := by
  refine ⟨by decide, by decide⟩

/-- Claim C7: routing is a pure function of the resource exactly as
specified: CustomResourceDefinitions (by apiVersion/kind) route to `crd`
regardless of labels; otherwise the first non-empty label value in the
priority order component-qualified, bare component, qualified name, bare
app wins; otherwise the root directory.  Totality is routing never
failing. -/
theorem c7_routing (obj : K8sObject) : getTargetDir obj = getTargetDirSpec obj := by
  unfold getTargetDir getTargetDirSpec routePriorityKeys
  by_cases hc : obj.apiVersion = lit "apiextensions.k8s.io/v1" ∧
      obj.kind = lit "CustomResourceDefinition"
  · simp [hc]
  · by_cases h1 : lookupD obj.metadata.labels (lit "app.kubernetes.io/component") = []
      <;> by_cases h2 : lookupD obj.metadata.labels (lit "component") = []
      <;> by_cases h3 : lookupD obj.metadata.labels (lit "app.kubernetes.io/name") = []
      <;> by_cases h4 : lookupD obj.metadata.labels (lit "app") = []
      <;> simp [hc, h1, h2, h3, h4, firstNonEmpty]

theorem processDocs_append (um : Str → Except Str K8sObject) :
    ∀ (xs ys : List Str) (s : BState),
      processDocs um s (xs ++ ys) =
        match processDocs um s xs with
        | Except.ok s' => processDocs um s' ys
        | Except.error e => Except.error e := by
  intro xs
  induction xs with
  | nil => intro ys s; simp [processDocs]
  | cons d rest ih =>
    intro ys s
    simp only [List.cons_append, processDocs]
    by_cases ht : trimAscii d = []
    · simp [ht, ih]
    · cases hp : parseYAMLObject um (trimAscii d) with
      | error e => simp [ht, hp]
      | ok o =>
        cases o with
        | none => simp [ht, hp, ih]
        | some obj =>
          cases hh : handleResourceType s { obj with raw := trimAscii d } with
          | error e => simp [ht, hp, hh]
          | ok s' => simp [ht, hp, hh, ih]

/-- Claim C9: within `Builder.Process`, a structural decode failure aborts
the remaining stream with that very error; a document that decodes but
lacks kind, apiVersion, or metadata.name is skipped and contributes nothing
to the state; every other document is dispatched through
`handleResourceType` and processing continues from the updated state. -/
theorem c9_process_stream :
    (∀ (um : Str → Except Str K8sObject) (s : BState) (xs : List Str) (d : Str)
       (ys : List Str) (e : Str) (s₁ : BState),
       processDocs um s xs = Except.ok s₁ →
       trimAscii d ≠ [] →
       um (trimAscii d) = Except.error e →
       processDocs um s (xs ++ d :: ys) = Except.error e) ∧
    (∀ (um : Str → Except Str K8sObject) (s : BState) (xs : List Str) (d : Str)
       (ys : List Str) (obj : K8sObject) (s₁ : BState),
       processDocs um s xs = Except.ok s₁ →
       trimAscii d ≠ [] →
       um (trimAscii d) = Except.ok obj →
       (obj.kind = [] ∨ obj.apiVersion = [] ∨ obj.metadata.name = []) →
       processDocs um s (xs ++ d :: ys) = processDocs um s (xs ++ ys)) ∧
    (∀ (um : Str → Except Str K8sObject) (s : BState) (xs : List Str) (d : Str)
       (ys : List Str) (obj : K8sObject) (s₁ s₂ : BState),
       processDocs um s xs = Except.ok s₁ →
       trimAscii d ≠ [] →
       um (trimAscii d) = Except.ok obj →
       ¬(obj.kind = [] ∨ obj.apiVersion = [] ∨ obj.metadata.name = []) →
       handleResourceType s₁ { obj with raw := trimAscii d } = Except.ok s₂ →
       processDocs um s (xs ++ d :: ys) = processDocs um s₂ ys) := by
  refine ⟨?_, ?_, ?_⟩
  · intro um s xs d ys e s₁ hxs ht he
    rw [processDocs_append, hxs]
    simp [processDocs, ht, parseYAMLObject, he]
  · intro um s xs d ys obj s₁ hxs ht ho hskip
    rw [processDocs_append, hxs, processDocs_append, hxs]
    simp [processDocs, ht, parseYAMLObject, ho, hskip]
  · intro um s xs d ys obj s₁ s₂ hxs ht ho hskip hh
    rw [processDocs_append, hxs]
    have hid : ¬ (obj.kind = [] ∨ obj.apiVersion = [] ∨ obj.metadata.name = []) := hskip
    simp [processDocs, ht, parseYAMLObject, ho, hid, hh]

/-- Witness for C9: a malformed document aborts with its error, an
identity-less document is skipped, and an ordinary document is handled. -/
theorem c9_witness :
    processDocs exUm initState ([] ++ (lit " bad ") :: [lit "x"]) =
      Except.error (lit "boom") ∧
    processDocs exUm initState ([] ++ (lit "noid") :: [lit "x"]) =
      processDocs exUm initState ([] ++ [lit "x"]) ∧
    processDocs exUm initState ([] ++ (lit "x") :: []) =
      processDocs exUm (handleGenericResource initState { exDep1 with raw := lit "x" }) [] :=
  ⟨c9_process_stream.1 exUm initState [] (lit " bad ") [lit "x"] (lit "boom")
     initState rfl (by decide) (by rfl),
   c9_process_stream.2.1 exUm initState [] (lit "noid") [lit "x"]
     { kind := lit "ConfigMap" } initState rfl (by decide) (by rfl) (by decide),
   c9_process_stream.2.2 exUm initState [] (lit "x") [] exDep1 initState
     (handleGenericResource initState { exDep1 with raw := lit "x" })
     rfl (by decide) (by rfl) (by decide) (by rfl)⟩

theorem lookupA_goInsert_self (m : List (Str × FileData)) (k : Str) (v : FileData) :
    lookupA k (goInsert m k v) = some v := by
  induction m with
  | nil => simp [goInsert, lookupA]
  | cons p rest ih =>
    obtain ⟨k', v'⟩ := p
    by_cases h : k' = k
    · simp [goInsert, h, lookupA]
    · simp [goInsert, h, lookupA, ih]

theorem lookupA_goInsert_other (m : List (Str × FileData)) (k k' : Str) (v : FileData)
    (h : ¬ (k' = k)) : lookupA k (goInsert m k' v) = lookupA k m := by
  induction m with
  | nil => simp [goInsert, lookupA, h]
  | cons p rest ih =>
    obtain ⟨k0, v0⟩ := p
    by_cases h0 : k0 = k'
    · subst h0
      simp [goInsert, lookupA, h]
    · simp only [goInsert, if_neg h0]
      by_cases h1 : k0 = k
      · simp [lookupA, h1]
      · simp [lookupA, h1, ih]

theorem keys_goInsert (m : List (Str × FileData)) (k : Str) (v : FileData) :
    ((goInsert m k v).map Prod.fst = m.map Prod.fst ∧ k ∈ m.map Prod.fst) ∨
    ((goInsert m k v).map Prod.fst = m.map Prod.fst ++ [k] ∧ k ∉ m.map Prod.fst) := by
  induction m with
  | nil =>
    right
    constructor
    · simp [goInsert]
    · exact List.not_mem_nil k
  | cons p rest ih =>
    obtain ⟨k0, v0⟩ := p
    by_cases h0 : k0 = k
    · subst h0
      left
      constructor
      · simp [goInsert]
      · exact List.mem_cons_self _ _
    · rcases ih with ⟨he, hm⟩ | ⟨he, hm⟩
      · left
        constructor
        · simp [goInsert, h0, he]
        · exact List.mem_cons_of_mem _ hm
      · right
        constructor
        · simp [goInsert, h0, he]
        · simp only [List.map_cons, List.mem_cons]
          intro hx
          rcases hx with hx | hx
          · exact h0 hx.symm
          · exact hm hx

theorem nodup_keys_goInsert {m : List (Str × FileData)} (k : Str) (v : FileData)
    (h : (m.map Prod.fst).Nodup) : ((goInsert m k v).map Prod.fst).Nodup := by
  rcases keys_goInsert m k v with ⟨he, _⟩ | ⟨he, hm⟩
  · rwa [he]
  · rw [he]
    refine h.append (List.nodup_singleton _) ?_
    intro a ha hb
    rw [List.mem_singleton] at hb
    subst hb
    exact hm ha

theorem fold_goInsert_not_mem (g : Str × Str → FileData) :
    ∀ (entries : List (Str × Str)) (m : List (Str × FileData)) (k : Str),
      k ∉ entries.map Prod.fst →
      lookupA k (entries.foldl (fun fs kv => goInsert fs kv.1 (g kv)) m) =
        lookupA k m := by
  intro entries
  induction entries with
  | nil => intro m k _; rfl
  | cons kv rest ih =>
    intro m k hk
    simp only [List.map_cons, List.mem_cons, not_or] at hk
    simp only [List.foldl_cons]
    rw [ih _ k hk.2, lookupA_goInsert_other _ _ _ _ (fun he => hk.1 he.symm)]

theorem fold_goInsert_lookup (g : Str × Str → FileData) :
    ∀ (entries : List (Str × Str)) (m : List (Str × FileData)) (k : Str) (v : Str),
      (entries.map Prod.fst).Nodup →
      lookupA k entries = some v →
      lookupA k (entries.foldl (fun fs kv => goInsert fs kv.1 (g kv)) m) =
        some (g (k, v)) := by
  intro entries
  induction entries with
  | nil =>
    intro m k v _ hl
    exact absurd hl (by simp [lookupA])
  | cons kv rest ih =>
    intro m k v hnd hl
    obtain ⟨k0, v0⟩ := kv
    simp only [List.map_cons, List.nodup_cons] at hnd
    by_cases h0 : k0 = k
    · subst h0
      simp [lookupA] at hl
      simp only [List.foldl_cons]
      rw [fold_goInsert_not_mem g rest _ k0 hnd.1, lookupA_goInsert_self, hl]
    · simp only [lookupA, if_neg h0] at hl
      simp only [List.foldl_cons]
      exact ih _ k v hnd.2 hl

theorem fold_goInsert_nodup_keys (g : Str × Str → FileData) :
    ∀ (entries : List (Str × Str)) (m : List (Str × FileData)),
      (m.map Prod.fst).Nodup →
      ((entries.foldl (fun fs kv => goInsert fs kv.1 (g kv)) m).map Prod.fst).Nodup := by
  intro entries
  induction entries with
  | nil => intro m h; exact h
  | cons kv rest ih =>
    intro m h
    simp only [List.foldl_cons]
    exact ih _ (nodup_keys_goInsert _ _ h)

theorem countKey_eq_one_of_nodup :
    ∀ (m : List (Str × FileData)) (k : Str),
      (m.map Prod.fst).Nodup → (lookupA k m).isSome → countKey k m = 1 := by
  intro m
  induction m with
  | nil => intro k _ h; simp [lookupA] at h
  | cons p rest ih =>
    intro k hnd hs
    obtain ⟨k0, v0⟩ := p
    simp only [List.map_cons, List.nodup_cons] at hnd
    by_cases h0 : k0 = k
    · subst h0
      have hz : countKey k0 rest = 0 := by
        unfold countKey
        rw [List.length_eq_zero, List.filter_eq_nil_iff]
        intro p hp
        simp only [decide_eq_true_eq]
        intro hpk
        exact hnd.1 (hpk ▸ List.mem_map_of_mem Prod.fst hp)
      unfold countKey at hz ⊢
      simp [List.filter_cons, hz]
    · simp only [lookupA, if_neg h0] at hs
      have := ih k hnd.2 hs
      unfold countKey at this ⊢
      simpa [List.filter_cons, h0] using this

theorem foldlM_decode_eq :
    ∀ (entries : List (Str × Str)) (init : List (Str × FileData)),
      (∀ kv ∈ entries, (base64Decode kv.2).isSome) →
      (entries.foldlM
        (fun fs (kv : Str × Str) =>
          match base64Decode kv.2 with
          | none => Except.error (lit "illegal base64 data")
          | some bs => Except.ok (goInsert fs kv.1 (FileData.bin bs)))
        init : Except Str (List (Str × FileData))) =
      Except.ok (entries.foldl
        (fun fs kv =>
          goInsert fs kv.1 (FileData.bin ((base64Decode kv.2).getD []))) init) := by
  intro entries
  induction entries with
  | nil => intro init _; rfl
  | cons kv rest ih =>
    intro init hall
    obtain ⟨bs, hbs⟩ :=
      Option.isSome_iff_exists.mp (hall kv (List.mem_cons_self _ _))
    rw [List.foldlM_cons, hbs]
    show (List.foldlM _ (goInsert init kv.1 (FileData.bin bs)) rest :
      Except Str (List (Str × FileData))) = _
    rw [ih _ (fun kv2 hkv => hall kv2 (List.mem_cons_of_mem _ hkv))]
    simp [List.foldl_cons, hbs]

/-- Claim C10: when one key occurs in both maps of a single resource — in
`data` and `binaryData` of a ConfigMap, or in `data` and `stringData` of a
Secret — the file group holds exactly one entry for that key, its payload
taken from the second-processed map (`binaryData` decoded for ConfigMaps,
`stringData` verbatim for Secrets), and no error is raised. -/
theorem c10_duplicate_key_second_map_wins :
    (∀ (obj : K8sObject) (k v : Str) (bs : List Nat),
      (obj.binaryData.map Prod.fst).Nodup →
      (∀ kv ∈ obj.binaryData, (base64Decode kv.2).isSome) →
      (lookupA k obj.data).isSome →
      lookupA k obj.binaryData = some v →
      base64Decode v = some bs →
      ∃ files, mkConfigMapFiles obj = Except.ok files ∧
        lookupA k files = some (FileData.bin bs) ∧ countKey k files = 1) ∧
    (∀ (obj : K8sObject) (k v : Str),
      (obj.stringData.map Prod.fst).Nodup →
      (∀ kv ∈ obj.data, (base64Decode kv.2).isSome) →
      (lookupA k obj.data).isSome →
      lookupA k obj.stringData = some v →
      ∃ files, mkSecretFiles obj = Except.ok files ∧
        lookupA k files = some (FileData.str v) ∧ countKey k files = 1) := by
  constructor
  · intro obj k v bs hnd hall hdata hlb hdec
    unfold mkConfigMapFiles
    rw [foldlM_decode_eq obj.binaryData _ hall]
    refine ⟨_, rfl, ?_, ?_⟩
    · rw [fold_goInsert_lookup _ obj.binaryData _ k v hnd hlb]
      simp [hdec]
    · apply countKey_eq_one_of_nodup
      · apply fold_goInsert_nodup_keys
        apply fold_goInsert_nodup_keys
        exact List.nodup_nil
      · rw [fold_goInsert_lookup _ obj.binaryData _ k v hnd hlb]
        rfl
  · intro obj k v hnd hall hdata hls
    unfold mkSecretFiles
    rw [foldlM_decode_eq obj.data _ hall]
    simp only [Except.map]
    refine ⟨_, rfl, ?_, ?_⟩
    · rw [fold_goInsert_lookup _ obj.stringData _ k v hnd hls]
    · apply countKey_eq_one_of_nodup
      · apply fold_goInsert_nodup_keys
        apply fold_goInsert_nodup_keys
        exact List.nodup_nil
      · rw [fold_goInsert_lookup _ obj.stringData _ k v hnd hls]
        rfl

/-- Witness for C10 at a ConfigMap and a Secret each carrying the key `k`
in both of their maps. -/
theorem c10_witness :
    (∃ files, mkConfigMapFiles exCMDup = Except.ok files ∧
      lookupA (lit "k") files = some (FileData.bin [104, 105]) ∧
      countKey (lit "k") files = 1) ∧
    (∃ files, mkSecretFiles exSecretDup = Except.ok files ∧
      lookupA (lit "k") files = some (FileData.str (lit "plain")) ∧
      countKey (lit "k") files = 1) :=
  ⟨c10_duplicate_key_second_map_wins.1 exCMDup (lit "k") (lit "aGk=") [104, 105]
     (by decide) (by decide) (by decide) (by rfl) (by rfl),
   c10_duplicate_key_second_map_wins.2 exSecretDup (lit "k") (lit "plain")
     (by decide) (by decide) (by decide) (by rfl)⟩

theorem splitYAMLDocument_pos {data : List Char} {adv : Nat} {tok : List Char}
    (h : splitYAMLDocument data = some (adv, tok)) :
    1 ≤ adv ∧ 1 ≤ data.length := by
  simp only [splitYAMLDocument] at h
  split at h
  · cases h
  · rename_i hne
    have hlen : 1 ≤ data.length := by
      cases data
      · exact absurd rfl hne
      · simp
    split at h
    · split at h
      · cases h
        exact ⟨hlen, hlen⟩
      · split at h
        · rename_i j hj
          cases h
          exact ⟨by omega, hlen⟩
        · cases h
    · cases h
      exact ⟨hlen, hlen⟩

theorem splitDocsAux_congr :
    ∀ (fuel1 : Nat) (data : List Char) (fuel2 : Nat),
      data.length < fuel1 → data.length < fuel2 →
      splitDocsAux fuel1 data = splitDocsAux fuel2 data := by
  intro fuel1
  induction fuel1 with
  | zero => intro data fuel2 h1 _; exact absurd h1 (Nat.not_lt_zero _)
  | succ n ih =>
    intro data fuel2 h1 h2
    cases fuel2 with
    | zero => exact absurd h2 (Nat.not_lt_zero _)
    | succ m =>
      simp only [splitDocsAux]
      cases hs : splitYAMLDocument data with
      | none => rfl
      | some at_ =>
        obtain ⟨adv, tok⟩ := at_
        obtain ⟨hadv, hdat⟩ := splitYAMLDocument_pos hs
        dsimp only
        congr 1
        apply ih
        · rw [List.length_drop]
          omega
        · rw [List.length_drop]
          omega

theorem indexByte_newline (b : List Char) :
    ∀ c : List Char, '\n' ∉ c →
      indexByte '\n' (c ++ '\n' :: b) = some c.length := by
  intro c
  induction c with
  | nil => intro _; simp [indexByte]
  | cons x xs ih =>
    intro h
    simp only [List.mem_cons, not_or] at h
    show (if x = '\n' then some 0
      else (indexByte '\n' (xs ++ '\n' :: b)).map (· + 1)) = some (x :: xs).length
    rw [if_neg (fun he : x = '\n' => h.1 he.symm), ih h.2]
    rfl

/-- Claim C4 (counterexample): the splitter does not require the marker to
be immediately followed by a newline.  On `a\n---junk\nb` no line equals the
bare marker, so under the claim the whole stream is one document, yet the
source's splitter treats the `---junk` line as a separator, emits `a` and
`b`, and silently discards `junk`. -/
theorem c4_counterexample :
    splitDocs (lit "a\n---junk\nb") = [lit "a", lit "b"] ∧
    claimSplit (lit "a\n---junk\nb") = [lit "a\n---junk\nb"] ∧
    splitDocs (lit "a\n---junk\nb") ≠ claimSplit (lit "a\n---junk\nb") := by
  refine ⟨by decide, by decide, by decide⟩

/-- Claim C4 (amended): a boundary occurs at each occurrence of the marker
at the start of a non-initial line; the separator consumes through the end
of that line, discarding any bytes standing between the three dashes and
the next newline, and the emitted document is the byte span before the
marker's newline. -/
theorem c4_separator_consumes_line (a c b : List Char)
    (hfind : findSub yamlSeparator (a ++ yamlSeparator ++ c ++ '\n' :: b) =
      some a.length)
    (hc : '\n' ∉ c) :
    splitDocs (a ++ yamlSeparator ++ c ++ '\n' :: b) = a :: splitDocs b := by
  set data := a ++ yamlSeparator ++ c ++ '\n' :: b with hdata
  have hne : ¬ (data = []) := by simp [hdata]
  have hdrop4 : data.drop (a.length + 4) = c ++ '\n' :: b := by
    have h2 : data = (a ++ yamlSeparator) ++ (c ++ '\n' :: b) := by
      simp [hdata, List.append_assoc]
    rw [h2]
    apply List.drop_left'
    simp [yamlSeparator, lit]
  have htake : data.take a.length = a := by
    have h2 := List.take_left a (yamlSeparator ++ (c ++ '\n' :: b))
    have h3 : a ++ (yamlSeparator ++ (c ++ '\n' :: b)) = data := by
      simp [hdata, List.append_assoc]
    rwa [h3] at h2
  have hafter : ¬ (c ++ '\n' :: b = []) := by simp
  have hidx : indexByte '\n' (c ++ '\n' :: b) = some c.length :=
    indexByte_newline b c hc
  have hsplit : splitYAMLDocument data = some (a.length + 4 + c.length + 1, a) := by
    simp only [splitYAMLDocument, if_neg hne, hfind, hdrop4, if_neg hafter,
      hidx, htake]
  have hdropAdv : data.drop (a.length + 4 + c.length + 1) = b := by
    have h2 : data = (a ++ yamlSeparator ++ c ++ ['\n']) ++ b := by
      simp [hdata, List.append_assoc]
    rw [h2]
    apply List.drop_left'
    simp [yamlSeparator, lit]
    omega
  have hblen : b.length < data.length := by
    rw [hdata]
    simp [yamlSeparator, lit]
    omega
  show splitDocsAux (data.length + 1) data = a :: splitDocs b
  have hstep : splitDocsAux (data.length + 1) data =
      a :: splitDocsAux data.length (data.drop (a.length + 4 + c.length + 1)) := by
    simp only [splitDocsAux, hsplit]
  rw [hstep, hdropAdv,
    splitDocsAux_congr data.length b (b.length + 1) hblen (Nat.lt_succ_self _)]
  rfl

/-- Witness for the amended C4 at the counterexample input itself. -/
theorem c4_witness :
    splitDocs (lit "a" ++ yamlSeparator ++ lit "junk" ++ '\n' :: lit "b") =
      lit "a" :: splitDocs (lit "b") :=
  c4_separator_consumes_line (lit "a") (lit "junk") (lit "b") (by decide) (by decide)

theorem charEqual_iff {a b : Char} :
    charEqual a b = true ↔
      (a = b ∨ ((a = '-' ∨ a = '_') ∧ (b = '-' ∨ b = '_'))) := by
  constructor
  · intro h
    unfold charEqual at h
    split_ifs at h with h1 h2 h3
    · exact Or.inl h1
    · exact Or.inr ⟨Or.inl h2.1, Or.inr h2.2⟩
    · exact Or.inr ⟨Or.inr h3.1, Or.inl h3.2⟩
  · intro h
    unfold charEqual
    rcases h with h | ⟨ha, hb⟩
    · simp [h]
    · rcases ha with rfl | rfl <;> rcases hb with rfl | rfl <;> simp

theorem charEqual_refl (a : Char) : charEqual a a = true := by
  simp [charEqual]

theorem charEqual_symm {a b : Char} (h : charEqual a b = true) :
    charEqual b a = true := by
  rw [charEqual_iff] at h ⊢
  tauto

theorem charEqual_trans {a b c : Char} (h1 : charEqual a b = true)
    (h2 : charEqual b c = true) : charEqual a c = true := by
  rw [charEqual_iff] at h1 h2 ⊢
  rcases h1 with rfl | h1 <;> rcases h2 with rfl | h2
  · exact Or.inl rfl
  · exact Or.inr h2
  · exact Or.inr h1
  · exact Or.inr ⟨h1.1, h2.2⟩

theorem charEqual_congr_right {a b : Char} (h : charEqual a b = true) (c : Char) :
    charEqual c a = charEqual c b := by
  by_cases hca : charEqual c a = true
  · rw [hca, charEqual_trans hca h]
  · by_cases hcb : charEqual c b = true
    · exact absurd (charEqual_trans hcb (charEqual_symm h)) hca
    · rw [Bool.not_eq_true] at hca hcb
      rw [hca, hcb]

theorem charEqual_sep_iff {a b : Char} (h : charEqual a b = true) :
    (a = '-' ∨ a = '_') ↔ (b = '-' ∨ b = '_') := by
  rw [charEqual_iff] at h
  rcases h with rfl | ⟨ha, hb⟩
  · exact Iff.rfl
  · exact ⟨fun _ => hb, fun _ => ha⟩

theorem chEq_refl (s : Str) : chEq s s :=
  List.forall₂_same.mpr (fun a _ => charEqual_refl a)

theorem chEq_symm {s t : Str} (h : chEq s t) : chEq t s := by
  induction h with
  | nil => exact List.Forall₂.nil
  | cons hr _ ih => exact List.Forall₂.cons (charEqual_symm hr) ih

theorem chEq_trans {s t u : Str} (h1 : chEq s t) (h2 : chEq t u) : chEq s u := by
  induction h1 generalizing u with
  | nil => cases h2; exact List.Forall₂.nil
  | cons hr _ ih =>
    cases h2 with
    | cons hr2 htl2 => exact List.Forall₂.cons (charEqual_trans hr hr2) (ih htl2)

theorem chEq_length {s t : Str} (h : chEq s t) : s.length = t.length :=
  h.length_eq

theorem chEq_nil_iff {s t : Str} (h : chEq s t) : s = [] ↔ t = [] := by
  cases h with
  | nil => simp
  | cons _ _ => simp

theorem chEq_take {s t : Str} (h : chEq s t) : ∀ n, chEq (s.take n) (t.take n) := by
  induction h with
  | nil =>
    intro n
    rw [List.take_nil]
    exact List.Forall₂.nil
  | cons hr _ ih =>
    intro n
    cases n with
    | zero => exact List.Forall₂.nil
    | succ m => exact List.Forall₂.cons hr (ih m)

theorem chEq_reverse {s t : Str} (h : chEq s t) : chEq s.reverse t.reverse :=
  List.forall₂_reverse_iff.mpr h

theorem lcpTwo_nil_left (y : Str) : lcpTwo [] y = [] := by
  cases y <;> rfl

theorem lcpTwo_nil_right (x : Str) : lcpTwo x [] = [] := by
  cases x <;> rfl

theorem lcpTwo_symm_chEq (x : Str) : ∀ y : Str, chEq (lcpTwo x y) (lcpTwo y x) := by
  induction x with
  | nil =>
    intro y
    cases y <;> exact List.Forall₂.nil
  | cons a as ih =>
    intro y
    cases y with
    | nil => exact List.Forall₂.nil
    | cons b bs =>
      show chEq (if charEqual b a then a :: lcpTwo as bs else [])
        (if charEqual a b then b :: lcpTwo bs as else [])
      by_cases hba : charEqual b a = true
      · rw [if_pos hba, if_pos (charEqual_symm hba)]
        exact List.Forall₂.cons (charEqual_symm hba) (ih bs)
      · rw [if_neg hba, if_neg (fun h => hba (charEqual_symm h))]
        exact List.Forall₂.nil

theorem chEq_lcpTwo_left {s t : Str} (h : chEq s t) :
    ∀ z : Str, chEq (lcpTwo s z) (lcpTwo t z) := by
  induction h with
  | nil => intro z; exact chEq_refl _
  | @cons a b as bs hr _ ih =>
    intro z
    cases z with
    | nil =>
      rw [lcpTwo_nil_right, lcpTwo_nil_right]
      exact List.Forall₂.nil
    | cons z0 zs =>
      show chEq (if charEqual z0 a then a :: lcpTwo as zs else [])
        (if charEqual z0 b then b :: lcpTwo bs zs else [])
      have hcond : charEqual z0 a = charEqual z0 b := charEqual_congr_right hr z0
      by_cases hza : charEqual z0 a = true
      · rw [if_pos hza, if_pos (hcond ▸ hza)]
        exact List.Forall₂.cons hr (ih zs)
      · rw [if_neg hza, if_neg (fun h2 => hza (hcond.symm ▸ h2))]
        exact List.Forall₂.nil

theorem chEq_foldl_lcpTwo :
    ∀ (l : List Str) {s t : Str}, chEq s t →
      chEq (List.foldl lcpTwo s l) (List.foldl lcpTwo t l) := by
  intro l
  induction l with
  | nil => intro s t h; exact h
  | cons x xs ih => intro s t h; exact ih (chEq_lcpTwo_left h x)

theorem lcpTwo_right_comm (x : Str) :
    ∀ y z : Str, lcpTwo (lcpTwo x y) z = lcpTwo (lcpTwo x z) y := by
  induction x with
  | nil =>
    intro y z
    rw [lcpTwo_nil_left, lcpTwo_nil_left, lcpTwo_nil_left]
  | cons a as ih =>
    intro y z
    cases y with
    | nil =>
      rw [lcpTwo_nil_right, lcpTwo_nil_left, lcpTwo_nil_right]
    | cons b bs =>
      cases z with
      | nil =>
        rw [lcpTwo_nil_right, lcpTwo_nil_right, lcpTwo_nil_left]
      | cons c cs =>
        show lcpTwo (if charEqual b a then a :: lcpTwo as bs else []) (c :: cs) =
          lcpTwo (if charEqual c a then a :: lcpTwo as cs else []) (b :: bs)
        by_cases hba : charEqual b a = true <;> by_cases hca : charEqual c a = true
        · rw [if_pos hba, if_pos hca]
          show (if charEqual c a then a :: lcpTwo (lcpTwo as bs) cs else []) =
            (if charEqual b a then a :: lcpTwo (lcpTwo as cs) bs else [])
          rw [if_pos hca, if_pos hba, ih bs cs]
        · rw [if_pos hba, if_neg hca]
          show (if charEqual c a then a :: lcpTwo (lcpTwo as bs) cs else []) = []
          rw [if_neg hca]
        · rw [if_neg hba, if_pos hca]
          show [] = (if charEqual b a then a :: lcpTwo (lcpTwo as cs) bs else [])
          rw [if_neg hba]
        · rw [if_neg hba, if_neg hca]
          rfl

theorem foldl_lcpTwo_perm {l₁ l₂ : List Str} (h : l₁.Perm l₂) :
    ∀ s : Str, List.foldl lcpTwo s l₁ = List.foldl lcpTwo s l₂ := by
  induction h with
  | nil => intro s; rfl
  | cons x _ ih =>
    intro s
    simp only [List.foldl_cons]
    exact ih _
  | swap x y l =>
    intro s
    simp only [List.foldl_cons]
    rw [lcpTwo_right_comm]
  | trans _ _ ih₁ ih₂ =>
    intro s
    rw [ih₁ s, ih₂ s]

theorem lcpSpec_perm_chEq {l₁ l₂ : List Str} (h : l₁.Perm l₂) :
    chEq (lcpSpec l₁) (lcpSpec l₂) := by
  induction h with
  | nil => exact List.Forall₂.nil
  | @cons x t₁ t₂ h _ =>
    simp only [lcpSpec]
    rw [foldl_lcpTwo_perm h x]
    exact chEq_refl _
  | swap x y l =>
    simp only [lcpSpec, List.foldl_cons]
    exact chEq_foldl_lcpTwo l (lcpTwo_symm_chEq y x)
  | trans _ _ ih₁ ih₂ => exact chEq_trans ih₁ ih₂

theorem longestCommonPref_perm_chEq {l₁ l₂ : List Str} (h : l₁.Perm l₂) :
    chEq (longestCommonPref l₁) (longestCommonPref l₂) := by
  have hlen := h.length_eq
  cases l₁ with
  | nil =>
    cases l₂ with
    | nil => exact List.Forall₂.nil
    | cons _ _ => simp at hlen
  | cons a t₁ =>
    cases t₁ with
    | nil =>
      cases l₂ with
      | nil => simp at hlen
      | cons b t₂ =>
        cases t₂ with
        | nil => exact List.Forall₂.nil
        | cons _ _ => simp at hlen
    | cons a' t₁' =>
      cases l₂ with
      | nil => simp at hlen
      | cons b t₂ =>
        cases t₂ with
        | nil => simp at hlen
        | cons b' t₂' =>
          rw [← lcpSpec_eq_longestCommonPref (by simp),
            ← lcpSpec_eq_longestCommonPref (by simp)]
          exact lcpSpec_perm_chEq h

theorem findIdx?_cons_eq (p : Char → Bool) (x : Char) (xs : List Char) :
    List.findIdx? p (x :: xs) =
      if p x then some 0 else (List.findIdx? p xs).map (· + 1) := by
  simp [List.findIdx?_cons]

theorem findIdx?_congr {p : Char → Bool} {s t : Str} (h : chEq s t)
    (hp : ∀ a b, charEqual a b = true → p a = p b) :
    s.findIdx? p = t.findIdx? p := by
  induction h with
  | nil => rfl
  | @cons a b as bs hr _ ih =>
    rw [findIdx?_cons_eq, findIdx?_cons_eq, hp a b hr, ih]

theorem indexOfSeparator_congr {s t : Str} (h : chEq s t) :
    indexOfSeparator s = indexOfSeparator t := by
  unfold indexOfSeparator
  rw [findIdx?_congr (chEq_reverse h)
      (fun a b hab => decide_eq_decide.mpr (charEqual_sep_iff hab)),
    chEq_length h]

theorem zip_all_charEqual_congr {p q : Str} (h : chEq p q) :
    ∀ s : Str, ((List.zip s p).all (fun cc => charEqual cc.1 cc.2)) =
      ((List.zip s q).all (fun cc => charEqual cc.1 cc.2)) := by
  induction h with
  | nil => intro s; cases s <;> rfl
  | @cons a b ps qs hr _ ih =>
    intro s
    cases s with
    | nil => rfl
    | cons s0 ss =>
      simp only [List.zip_cons_cons, List.all_cons]
      rw [charEqual_congr_right hr s0, ih ss]

theorem trimPref_congr {p q : Str} (h : chEq p q) (s : Str) :
    trimPref s p = trimPref s q := by
  unfold trimPref
  rw [chEq_length h, zip_all_charEqual_congr h s]

theorem validNames_perm {ns₁ ns₂ uniq₁ uniq₂ : List Str}
    (hn : ns₁.Perm ns₂) (hu : uniq₁.Perm uniq₂) :
    validNames ns₁ uniq₁ = validNames ns₂ uniq₂ := by
  have hiff : validNames ns₁ uniq₁ = true ↔ validNames ns₂ uniq₂ = true := by
    rw [validNames_iff, validNames_iff]
    constructor
    · rintro ⟨h1, h2⟩
      refine ⟨fun n hm => ?_, hn.nodup h2⟩
      obtain ⟨hne, hni⟩ := h1 n (hn.mem_iff.mpr hm)
      exact ⟨hne, fun hm2 => hni (hu.mem_iff.mpr hm2)⟩
    · rintro ⟨h1, h2⟩
      refine ⟨fun n hm => ?_, hn.symm.nodup h2⟩
      obtain ⟨hne, hni⟩ := h1 n (hn.mem_iff.mp hm)
      exact ⟨hne, fun hm2 => hni (hu.mem_iff.mp hm2)⟩
  cases hv1 : validNames ns₁ uniq₁ <;> cases hv2 : validNames ns₂ uniq₂ <;> simp_all

theorem forall₂_flatMap_perm {α β γ : Type} {R : α → β → Prop}
    {g : α → List γ} {g' : β → List γ} {l₁ : List α} {l₂ : List β}
    (h : List.Forall₂ R l₁ l₂) (hg : ∀ a b, R a b → (g a).Perm (g' b)) :
    (l₁.flatMap g).Perm (l₂.flatMap g') := by
  induction h with
  | nil => exact List.Perm.refl _
  | cons hr _ ih =>
    simp only [List.flatMap_cons]
    exact (hg _ _ hr).append ih

theorem filePairs_perm {objects₁ objects₂ : List FilesObject}
    (h : List.Forall₂ filesRel objects₁ objects₂) :
    (filePairs objects₁).Perm (filePairs objects₂) := by
  unfold filePairs
  refine forall₂_flatMap_perm h (fun a b hab => ?_)
  obtain ⟨hk, hf⟩ := hab
  rw [hk]
  exact hf.map _

theorem genWrites_perm (f : K8sObject → Str → Str)
    {objects₁ objects₂ : List FilesObject}
    (h : List.Forall₂ filesRel objects₁ objects₂) :
    (genWrites objects₁ f).Perm (genWrites objects₂ f) := by
  unfold genWrites
  refine forall₂_flatMap_perm h (fun a b hab => ?_)
  obtain ⟨hk, hf⟩ := hab
  unfold filesWrites
  rw [hk]
  exact hf.map _

theorem acceptFiles_perm (f : K8sObject → Str → Str)
    {objects₁ objects₂ : List FilesObject} {uniq₁ uniq₂ : List Str}
    (hobj : List.Forall₂ filesRel objects₁ objects₂) (hu : uniq₁.Perm uniq₂) :
    (acceptFiles objects₁ uniq₁ f = none ∧ acceptFiles objects₂ uniq₂ f = none) ∨
    (∃ items₁ items₂, acceptFiles objects₁ uniq₁ f = some items₁ ∧
      acceptFiles objects₂ uniq₂ f = some items₂ ∧ items₁.Perm items₂) := by
  have hperm : ((filePairs objects₁).map (fun p => f p.1 p.2)).Perm
      ((filePairs objects₂).map (fun p => f p.1 p.2)) := (filePairs_perm hobj).map _
  have hv := validNames_perm hperm hu
  simp only [acceptFiles]
  by_cases h1 : validNames ((filePairs objects₁).map (fun p => f p.1 p.2)) uniq₁ = true
  · right
    exact ⟨_, _, by rw [if_pos h1], by rw [if_pos (hv.symm.trans h1)], hperm⟩
  · left
    exact ⟨by rw [if_neg h1], by rw [if_neg (fun h2 => h1 (hv.trans h2))]⟩

theorem refineFiles_perm {objects₁ objects₂ : List FilesObject}
    {uniq₁ uniq₂ : List Str} (f : K8sObject → Str → Str) {items₁ items₂ : List Str}
    (hobj : List.Forall₂ filesRel objects₁ objects₂) (hu : uniq₁.Perm uniq₂)
    (hitems : items₁.Perm items₂) :
    ∃ g u₁ u₂, refineFiles objects₁ uniq₁ f items₁ = (g, u₁) ∧
      refineFiles objects₂ uniq₂ f items₂ = (g, u₂) ∧ u₁.Perm u₂ := by
  have hch : chEq (longestCommonPref items₁) (longestCommonPref items₂) :=
    longestCommonPref_perm_chEq hitems
  simp only [refineFiles]
  by_cases hp1 : longestCommonPref items₁ = []
  · have hp2 : longestCommonPref items₂ = [] := (chEq_nil_iff hch).mp hp1
    rw [if_pos hp1, if_pos hp2]
    exact ⟨f, _, _, rfl, rfl, hu.append hitems⟩
  · have hp2 : ¬ longestCommonPref items₂ = [] :=
      fun h2 => hp1 ((chEq_nil_iff hch).mpr h2)
    rw [if_neg hp1, if_neg hp2, indexOfSeparator_congr hch]
    cases hidx : indexOfSeparator (longestCommonPref items₂) with
    | none => exact ⟨f, _, _, rfl, rfl, hu.append hitems⟩
    | some idx =>
      dsimp only
      have hnf : (fun o k => trimPref (f o k) ((longestCommonPref items₁).take idx)) =
          (fun o k => trimPref (f o k) ((longestCommonPref items₂).take idx)) := by
        funext o k
        exact trimPref_congr (chEq_take hch idx) _
      rw [hnf]
      rcases acceptFiles_perm
          (fun o k => trimPref (f o k) ((longestCommonPref items₂).take idx))
          hobj hu with ⟨ha1, ha2⟩ | ⟨ni₁, ni₂, ha1, ha2, hni⟩
      · rw [ha1, ha2]
        exact ⟨f, _, _, rfl, rfl, hu.append hitems⟩
      · rw [ha1, ha2]
        exact ⟨_, _, _, rfl, rfl, hu.append hni⟩

theorem selectFiles_perm {objects₁ objects₂ : List FilesObject}
    {uniq₁ uniq₂ : List Str}
    (hobj : List.Forall₂ filesRel objects₁ objects₂) (hu : uniq₁.Perm uniq₂) :
    (selectFiles objects₁ uniq₁ = none ∧ selectFiles objects₂ uniq₂ = none) ∨
    (∃ g u₁ u₂, selectFiles objects₁ uniq₁ = some (g, u₁) ∧
      selectFiles objects₂ uniq₂ = some (g, u₂) ∧ u₁.Perm u₂) := by
  unfold selectFiles
  rcases acceptFiles_perm getGeneratorObjectShortFilenameByKey hobj hu with
    ⟨h1a, h1b⟩ | ⟨i₁, i₂, h1a, h1b, hi⟩
  case inr.intro.intro.intro.intro =>
    rw [h1a, h1b]
    dsimp only
    obtain ⟨g, u₁, u₂, hr1, hr2, hp⟩ :=
      refineFiles_perm getGeneratorObjectShortFilenameByKey hobj hu hi
    rw [hr1, hr2]
    exact Or.inr ⟨g, u₁, u₂, rfl, rfl, hp⟩
  rw [h1a, h1b]
  dsimp only
  rcases acceptFiles_perm getGeneratorObjectShortFilenameByKeyAndKind hobj hu with
    ⟨h2a, h2b⟩ | ⟨i₁, i₂, h2a, h2b, hi⟩
  case inr.intro.intro.intro.intro =>
    rw [h2a, h2b]
    dsimp only
    obtain ⟨g, u₁, u₂, hr1, hr2, hp⟩ :=
      refineFiles_perm getGeneratorObjectShortFilenameByKeyAndKind hobj hu hi
    rw [hr1, hr2]
    exact Or.inr ⟨g, u₁, u₂, rfl, rfl, hp⟩
  rw [h2a, h2b]
  dsimp only
  rcases acceptFiles_perm getGeneratorObjectFilenameByKeyAndName hobj hu with
    ⟨h3a, h3b⟩ | ⟨i₁, i₂, h3a, h3b, hi⟩
  case inr.intro.intro.intro.intro =>
    rw [h3a, h3b]
    dsimp only
    obtain ⟨g, u₁, u₂, hr1, hr2, hp⟩ :=
      refineFiles_perm getGeneratorObjectFilenameByKeyAndName hobj hu hi
    rw [hr1, hr2]
    exact Or.inr ⟨g, u₁, u₂, rfl, rfl, hp⟩
  rw [h3a, h3b]
  dsimp only
  rcases acceptFiles_perm getGeneratorObjectFilenameFull hobj hu with
    ⟨h4a, h4b⟩ | ⟨i₁, i₂, h4a, h4b, hi⟩
  case inr.intro.intro.intro.intro =>
    rw [h4a, h4b]
    dsimp only
    obtain ⟨g, u₁, u₂, hr1, hr2, hp⟩ :=
      refineFiles_perm getGeneratorObjectFilenameFull hobj hu hi
    rw [hr1, hr2]
    exact Or.inr ⟨g, u₁, u₂, rfl, rfl, hp⟩
  rw [h4a, h4b]
  exact Or.inl ⟨rfl, rfl⟩

theorem acceptK8s_uniq_perm (objects : List K8sObject) {uniq₁ uniq₂ : List Str}
    (f : K8sObject → Str) (hu : uniq₁.Perm uniq₂) :
    acceptK8s objects uniq₁ f = acceptK8s objects uniq₂ f := by
  simp only [acceptK8s]
  rw [validNames_perm (List.Perm.refl _) hu]

theorem refineK8s_uniq_perm (objects : List K8sObject) {uniq₁ uniq₂ : List Str}
    (f : K8sObject → Str) (items : List Str) (hu : uniq₁.Perm uniq₂) :
    ∃ g u₁ u₂, refineK8s objects uniq₁ f items = (g, u₁) ∧
      refineK8s objects uniq₂ f items = (g, u₂) ∧ u₁.Perm u₂ := by
  simp only [refineK8s]
  by_cases hp : longestCommonPref items = []
  · rw [if_pos hp, if_pos hp]
    exact ⟨f, _, _, rfl, rfl, hu.append (List.Perm.refl _)⟩
  · rw [if_neg hp, if_neg hp]
    cases indexOfSeparator (longestCommonPref items) with
    | none => exact ⟨f, _, _, rfl, rfl, hu.append (List.Perm.refl _)⟩
    | some idx =>
      dsimp only
      rw [acceptK8s_uniq_perm objects _ hu]
      cases acceptK8s objects uniq₂
          (fun o => trimPref (f o) ((longestCommonPref items).take idx)) with
      | none => exact ⟨f, _, _, rfl, rfl, hu.append (List.Perm.refl _)⟩
      | some ni => exact ⟨_, _, _, rfl, rfl, hu.append (List.Perm.refl _)⟩

theorem selectK8s_uniq_perm (objects : List K8sObject) {uniq₁ uniq₂ : List Str}
    (hu : uniq₁.Perm uniq₂) :
    (selectK8s objects uniq₁ = none ∧ selectK8s objects uniq₂ = none) ∨
    (∃ f u₁ u₂, selectK8s objects uniq₁ = some (f, u₁) ∧
      selectK8s objects uniq₂ = some (f, u₂) ∧ u₁.Perm u₂) := by
  unfold selectK8s
  rw [acceptK8s_uniq_perm objects getCRDFilename hu,
    acceptK8s_uniq_perm objects getK8sObjectShortFilenameByKind hu,
    acceptK8s_uniq_perm objects getK8sObjectShortFilenameByName hu,
    acceptK8s_uniq_perm objects getK8sObjectShortFilenameByNameAndKind hu,
    acceptK8s_uniq_perm objects getK8sObjectFilenameFull hu]
  cases acceptK8s objects uniq₂ getCRDFilename with
  | some items =>
    exact Or.inr ⟨getCRDFilename, _, _, rfl, rfl, hu.append (List.Perm.refl _)⟩
  | none =>
  dsimp only
  cases acceptK8s objects uniq₂ getK8sObjectShortFilenameByKind with
  | some items =>
    dsimp only
    obtain ⟨g, u₁, u₂, hr1, hr2, hp⟩ :=
      refineK8s_uniq_perm objects getK8sObjectShortFilenameByKind items hu
    rw [hr1, hr2]
    exact Or.inr ⟨g, u₁, u₂, rfl, rfl, hp⟩
  | none =>
  dsimp only
  cases acceptK8s objects uniq₂ getK8sObjectShortFilenameByName with
  | some items =>
    dsimp only
    obtain ⟨g, u₁, u₂, hr1, hr2, hp⟩ :=
      refineK8s_uniq_perm objects getK8sObjectShortFilenameByName items hu
    rw [hr1, hr2]
    exact Or.inr ⟨g, u₁, u₂, rfl, rfl, hp⟩
  | none =>
  dsimp only
  cases acceptK8s objects uniq₂ getK8sObjectShortFilenameByNameAndKind with
  | some items =>
    dsimp only
    obtain ⟨g, u₁, u₂, hr1, hr2, hp⟩ :=
      refineK8s_uniq_perm objects getK8sObjectShortFilenameByNameAndKind items hu
    rw [hr1, hr2]
    exact Or.inr ⟨g, u₁, u₂, rfl, rfl, hp⟩
  | none =>
  dsimp only
  cases acceptK8s objects uniq₂ getK8sObjectFilenameFull with
  | some items =>
    dsimp only
    obtain ⟨g, u₁, u₂, hr1, hr2, hp⟩ :=
      refineK8s_uniq_perm objects getK8sObjectFilenameFull items hu
    rw [hr1, hr2]
    exact Or.inr ⟨g, u₁, u₂, rfl, rfl, hp⟩
  | none => exact Or.inl ⟨rfl, rfl⟩

theorem dirResolveFrom_perm {agg₁ agg₂ : Agg} {uniq₁ uniq₂ : List Str}
    (hk : agg₁.k8sObjects = agg₂.k8sObjects)
    (hcm : List.Forall₂ filesRel agg₁.configMapObjects agg₂.configMapObjects)
    (hsec : List.Forall₂ filesRel agg₁.secretObjects agg₂.secretObjects)
    (hu : uniq₁.Perm uniq₂) :
    (dirResolveFrom agg₁ uniq₁ = none ∧ dirResolveFrom agg₂ uniq₂ = none) ∨
    (∃ f1 f2 f3 u₁ u₂, dirResolveFrom agg₁ uniq₁ = some (f1, f2, f3, u₁) ∧
      dirResolveFrom agg₂ uniq₂ = some (f1, f2, f3, u₂) ∧ u₁.Perm u₂) := by
  unfold dirResolveFrom
  rw [hk]
  rcases selectK8s_uniq_perm agg₂.k8sObjects hu with
    ⟨h1a, h1b⟩ | ⟨f1, v₁, v₂, h1a, h1b, hv⟩
  · rw [h1a, h1b]
    exact Or.inl ⟨rfl, rfl⟩
  rw [h1a, h1b]
  dsimp only
  rcases selectFiles_perm hcm hv with ⟨h2a, h2b⟩ | ⟨f2, w₁, w₂, h2a, h2b, hw⟩
  · rw [h2a, h2b]
    exact Or.inl ⟨rfl, rfl⟩
  rw [h2a, h2b]
  dsimp only
  rcases selectFiles_perm hsec hw with ⟨h3a, h3b⟩ | ⟨f3, x₁, x₂, h3a, h3b, hx⟩
  · rw [h3a, h3b]
    exact Or.inl ⟨rfl, rfl⟩
  rw [h3a, h3b]
  exact Or.inr ⟨f1, f2, f3, x₁, x₂, rfl, rfl, hx⟩

/-- Claim C2 (amended): re-running the pipeline on the same input is
deterministic up to Go's unspecified map iteration order.  For two runs of
one directory's build whose states differ only in the iteration order of
each file-group map (`filesRel` relates the two views of each group, the
other fields being equal), resolution succeeds or fails identically; when it
succeeds both runs select the same three naming functions (so every payload
filename — and the manifest's name — is identical); and the write-call
sequences agree up to reordering on everything except the manifest's bytes:
the payload writes (all writes but the final `kustomization.yaml`) of one
run are a permutation of the other's, and the full lists of written
filenames are permutations of each other, while the manifest write itself
may carry byte-different content, its `files:` lines following each map's
own order. -/
theorem c2_iteration_order_invariance (agg₁ agg₂ : Agg)
    (hk : agg₁.k8sObjects = agg₂.k8sObjects)
    (hr : agg₁.resources = agg₂.resources)
    (hcm : List.Forall₂ filesRel agg₁.configMapObjects agg₂.configMapObjects)
    (hsec : List.Forall₂ filesRel agg₁.secretObjects agg₂.secretObjects) :
    (dirBuild agg₁).isSome = (dirBuild agg₂).isSome ∧
    (∀ f₁ f₂ f₃ u g₁ g₂ g₃ v,
      dirResolveFrom agg₁ (initUniq agg₁.resources) = some (f₁, f₂, f₃, u) →
      dirResolveFrom agg₂ (initUniq agg₂.resources) = some (g₁, g₂, g₃, v) →
      f₁ = g₁ ∧ f₂ = g₂ ∧ f₃ = g₃ ∧ u.Perm v) ∧
    (∀ ws₁ ws₂, dirBuild agg₁ = some ws₁ → dirBuild agg₂ = some ws₂ →
      ws₁.dropLast.Perm ws₂.dropLast ∧
      (ws₁.map Prod.fst).Perm (ws₂.map Prod.fst)) := by
  have hu : (initUniq agg₁.resources).Perm (initUniq agg₂.resources) := by
    rw [hr]
  rcases dirResolveFrom_perm hk hcm hsec hu with
    ⟨hres1, hres2⟩ | ⟨f1, f2, f3, u₁, u₂, hres1, hres2, hup⟩
  · refine ⟨?_, ?_, ?_⟩
    · unfold dirBuild
      rw [hres1, hres2]
    · intro f₁ f₂ f₃ u g₁ g₂ g₃ v h1 h2
      rw [hres1] at h1
      exact Option.noConfusion h1
    · intro ws₁ ws₂ h1 h2
      unfold dirBuild at h1
      rw [hres1] at h1
      dsimp only at h1
      exact Option.noConfusion h1
  · refine ⟨?_, ?_, ?_⟩
    · unfold dirBuild
      rw [hres1, hres2]
      rfl
    · intro f₁ f₂ f₃ u g₁ g₂ g₃ v h1 h2
      rw [hres1] at h1
      rw [hres2] at h2
      injection h1 with h1
      injection h2 with h2
      simp only [Prod.mk.injEq] at h1 h2
      obtain ⟨e1, e2, e3, e4⟩ := h1
      obtain ⟨d1, d2, d3, d4⟩ := h2
      subst e1; subst e2; subst e3; subst e4
      subst d1; subst d2; subst d3; subst d4
      exact ⟨rfl, rfl, rfl, hup⟩
    · intro ws₁ ws₂ h1 h2
      unfold dirBuild at h1 h2
      rw [hres1] at h1
      rw [hres2] at h2
      dsimp only at h1 h2
      injection h1 with h1
      injection h2 with h2
      subst h1
      subst h2
      have hra : (resourceWrites agg₁.k8sObjects f1).Perm
          (resourceWrites agg₂.k8sObjects f1) := by
        rw [hk]
      have hpay : ((resourceWrites agg₁.k8sObjects f1 ++
            genWrites agg₁.configMapObjects f2) ++
            genWrites agg₁.secretObjects f3).Perm
          ((resourceWrites agg₂.k8sObjects f1 ++
            genWrites agg₂.configMapObjects f2) ++
            genWrites agg₂.secretObjects f3) :=
        (hra.append (genWrites_perm f2 hcm)).append (genWrites_perm f3 hsec)
      have hre : ∀ (a b c : List (Str × FileData)) (m : Str × FileData),
          a ++ b ++ c ++ [m] = ((a ++ b) ++ c) ++ [m] := by
        intro a b c m
        simp [List.append_assoc]
      constructor
      · rw [hre, hre, List.dropLast_concat, List.dropLast_concat]
        exact hpay
      · have he1 : ∀ (agg : Agg) (g1 : K8sObject → Str) (g2 g3 : K8sObject → Str → Str),
            (resourceWrites agg.k8sObjects g1 ++ genWrites agg.configMapObjects g2 ++
              genWrites agg.secretObjects g3 ++
              [(lit "kustomization.yaml", FileData.str (manifestOf agg g1 g2 g3))]).map
              Prod.fst =
            ((resourceWrites agg.k8sObjects g1 ++ genWrites agg.configMapObjects g2) ++
              genWrites agg.secretObjects g3).map Prod.fst ++
              [lit "kustomization.yaml"] := by
          intro agg g1 g2 g3
          simp [List.append_assoc]
        rw [he1, he1]
        exact (hpay.map Prod.fst).append (List.Perm.refl _)

theorem c2_witness :
    (((dirBuild exAggCM1).getD []).dropLast.Perm
      ((dirBuild exAggCM2).getD []).dropLast) ∧
    ((((dirBuild exAggCM1).getD []).map Prod.fst).Perm
      (((dirBuild exAggCM2).getD []).map Prod.fst)) :=
  (c2_iteration_order_invariance exAggCM1 exAggCM2 rfl rfl
      (List.Forall₂.cons ⟨rfl, List.Perm.swap _ _ _⟩ List.Forall₂.nil)
      List.Forall₂.nil).2.2
    ((dirBuild exAggCM1).getD []) ((dirBuild exAggCM2).getD [])
    (by rfl) (by rfl)
